import Mathlib

/-
Verification of the Center_joballocation assignment engine.

This file gives a shallow embedding of the core of the repository
(domain model, priority scoring, interval bookkeeping, the greedy
heuristic strategy, the deferred-acceptance strategy and the result
validator) and proves or refutes the frozen specification claims.

Modelling conventions, chosen once and used throughout:
- Python ints are modelled as Int (arbitrary precision in both).
- Python floats are modelled as rationals.  Every float constant used
  by calculate_priority_score (1.0 .. 4.0, 3.0, 2.0, 1.0, 0.5) is
  exactly representable in binary floating point and all partial sums
  are multiples of 0.5 far below 2 to the 53, so double arithmetic is
  exact there and the rational model agrees with the source bit for
  bit.  The auxiliary assignment score of the heuristic multiplies by
  0.1 and 0.05; those constants are not exact doubles, but no claim
  depends on the numeric value of that score (the greedy phase never
  produces a candidate slot, see findAvailableSlots below).
- datetime values are modelled as integers (seconds since the epoch);
  timedelta.days is floor division by 86400, modelled with Int.fdiv.
- datetime.now(), reached through Task.days_until_deadline inside
  calculate_priority_score, is ambient state; the embedding makes it
  an explicit parameter called now.
- Python dicts keyed by id strings are modelled either as association
  lists (when insertion order or key updates matter) or as functions.
  Python sets of task ids, whose iteration order is unspecified but
  deterministic, are modelled as duplicate-free lists; properties
  proved below do not depend on the chosen order.
- Exceptions are modelled with Except where a claim mentions them.
-/

namespace JobAlloc

/-- Priority enum of src/src/models/task.py (LOW to 1 .. URGENT to 4). -/
inductive Priority where
  | LOW
  | MEDIUM
  | HIGH
  | URGENT
deriving DecidableEq, Repr

/-- Numeric value of the Priority enum member. -/
def Priority.value : Priority → Int
  | .LOW => 1
  | .MEDIUM => 2
  | .HIGH => 3
  | .URGENT => 4

/-- Task record of src/src/models/task.py.  The deadline is an epoch
timestamp in seconds when present. -/
structure Task where
  taskId : String
  name : String
  taskType : String
  requiredHours : Int
  deadline : Option Int
  priority : Priority
  requiredSkill : Option String
deriving DecidableEq, Repr

/-- Constructor check embedded from Task postinit in
src/src/models/task.py lines 34-38: required hours below 1 or above 8
raise ValueError.  The string-priority coercion branch is dropped
because the embedding is typed. -/
def mkTask (taskId name taskType : String) (requiredHours : Int)
    (deadline : Option Int) (priority : Priority)
    (requiredSkill : Option String) : Except String Task :=
  if requiredHours < 1 then
    .error "Required hours must be at least 1"
  else if requiredHours > 8 then
    .error "Required hours cannot exceed 8 (one working day)"
  else
    .ok ⟨taskId, name, taskType, requiredHours, deadline, priority, requiredSkill⟩

/-- Embeds Task.days_until_deadline of src/src/models/task.py: the
days field of the timedelta deadline minus now, which is floor
division of the difference in seconds by 86400.  The from_date
argument defaults to datetime.now() in the source; here it is the
explicit parameter now. -/
def daysUntilDeadline (t : Task) (now : Int) : Option Int :=
  t.deadline.map (fun d => Int.fdiv (d - now) 86400)

/-- Operator record of src/src/models/operator.py.  available_hours is
a pair of datetime.time values; the embedding keeps their hour and
minute components. -/
structure Operator where
  operatorId : String
  name : String
  skillSet : List String
  availStartHour : Int
  availStartMinute : Int
  availEndHour : Int
  availEndMinute : Int
deriving DecidableEq, Repr

/-- The hour component of the window start, available_hours[0].hour. -/
def Operator.workStart (o : Operator) : Int := o.availStartHour

/-- The hour component of the window end, available_hours[1].hour. -/
def Operator.workEnd (o : Operator) : Int := o.availEndHour

/-- Embeds Operator.get_available_hours_in_minutes. -/
def Operator.availableMinutes (o : Operator) : Int :=
  (o.availEndHour * 60 + o.availEndMinute) - (o.availStartHour * 60 + o.availStartMinute)

/-- Embeds Operator.get_available_hours (minutes divided by 60.0). -/
def Operator.getAvailableHours (o : Operator) : ℚ :=
  (o.availableMinutes : ℚ) / 60

/-- Embeds Operator.has_skill.  Python membership in a set of strings. -/
def Operator.hasSkill (o : Operator) (s : String) : Bool :=
  o.skillSet.contains s

/-- Assignment record of src/src/models/schedule.py. -/
structure Assignment where
  operatorId : String
  taskId : String
  startHour : Int
  durationHours : Int
deriving DecidableEq, Repr

/-- Derived end_hour property: start_hour + duration_hours. -/
def Assignment.endHour (a : Assignment) : Int :=
  a.startHour + a.durationHours

/-- ScheduleResult of src/src/models/schedule.py, reduced to the
fields the claims are about (execution time and creation timestamp
carry no scheduling content). -/
structure ScheduleResult where
  algorithmType : String
  assignments : List Assignment
deriving DecidableEq, Repr

/-- Embeds OptimizationAlgorithm.calculate_priority_score of
src/src/algorithms/base.py lines 141-169.  The base-score lookup
priority_scores.get(name, 2.0) is total because the enum has exactly
the four listed members, so the 2.0 default is dead.  The parameter
now stands for the ambient datetime.now() read inside
days_until_deadline. -/
def calculatePriorityScore (t : Task) (now : Int) : ℚ :=
  let base : ℚ :=
    match t.priority with
    | .LOW => 1
    | .MEDIUM => 2
    | .HIGH => 3
    | .URGENT => 4
  let afterDeadline : ℚ :=
    match t.deadline with
    | none => base
    | some _ =>
      match daysUntilDeadline t now with
      | none => base
      | some days =>
        if days ≤ 1 then base + 3
        else if days ≤ 3 then base + 2
        else if days ≤ 7 then base + 1
        else base
  if t.requiredHours ≤ 2 then afterDeadline + 1/2 else afterDeadline

/-- Embeds OptimizationAlgorithm.run of src/src/algorithms/base.py
lines 32-47: an empty operator list or empty task list raises
ValueError before the strategy-specific optimize step runs.  The
optimize argument stands for the abstract method implemented by each
strategy. -/
def runAlgorithm (operators : List Operator) (tasks : List Task)
    (optimize : List Operator → List Task → ScheduleResult) :
    Except String ScheduleResult :=
  if operators.isEmpty || tasks.isEmpty then
    .error "Operators and tasks must be set before running the algorithm"
  else
    .ok (optimize operators tasks)

/-- Eligibility test from OptimizationAlgorithm._compute_skill_matching
in src/src/algorithms/base.py lines 54-71: an operator is eligible for
a task when the task has no required skill (Python truthiness: None or
the empty string) or the operator has the skill. -/
def eligibleFor (t : Task) (o : Operator) : Bool :=
  match t.requiredSkill with
  | none => true
  | some s => if s = "" then true else o.hasSkill s

/-- Embeds the skill_matching dict built by _compute_skill_matching:
task id to the list of eligible operator ids in operator input order.
Duplicate task ids overwrite earlier dict entries in Python, hence the
reverse-find. -/
def computeSkillMatching (operators : List Operator) (tasks : List Task) :
    String → Option (List String) :=
  fun tid =>
    (tasks.reverse.find? (fun t => t.taskId = tid)).map
      (fun t => (operators.filter (fun o => eligibleFor t o)).map (·.operatorId))

/-- Embeds OptimizationAlgorithm.can_assign of src/src/algorithms/base.py
lines 73-82. -/
def canAssign (sm : String → Option (List String)) (operatorId taskId : String) : Bool :=
  match sm taskId with
  | none => false
  | some l => l.contains operatorId

/-- Python range(a, b) over integers. -/
def intRange (a b : Int) : List Int :=
  (List.range (b - a).toNat).map (fun i => a + (i : Int))

/-- Lexicographic tuple comparison used by Python sorted on pairs. -/
def lexLe (p q : Int × Int) : Bool :=
  decide (p.1 < q.1 ∨ (p.1 = q.1 ∧ p.2 ≤ q.2))

/-- Embeds HeuristicOptimizer._find_available_slots of
src/src/algorithms/heuristic.py lines 94-111.  Note that the source
iterates over consecutive PAIRS of free intervals and offers the gap
between them, not the interior of the free intervals themselves. -/
def findAvailableSlots (schedule : List (Int × Int)) (duration : Int) : List Int :=
  let ss := schedule.mergeSort lexLe
  (ss.zip ss.tail).flatMap (fun p =>
    let currentEnd := p.1.2
    let nextStart := p.2.1
    if nextStart - currentEnd ≥ duration then
      intRange currentEnd (nextStart - duration + 1)
    else [])

/-- Embeds DeferredAcceptanceOptimizer._update_schedule of
src/src/algorithms/deferred_acceptance.py lines 257-272: every free
slot containing the occupied range is replaced by its strict pre and
post residual segments; all other slots are kept. -/
def updateSchedule (schedule : List (Int × Int)) (startHour endHour : Int) :
    List (Int × Int) :=
  schedule.flatMap (fun s =>
    if startHour ≥ s.1 ∧ endHour ≤ s.2 then
      (if startHour > s.1 then [(s.1, startHour)] else []) ++
      (if endHour < s.2 then [(endHour, s.2)] else [])
    else [s])

/-- Embeds HeuristicOptimizer._update_operator_schedule of
src/src/algorithms/heuristic.py lines 129-145; its body is line for
line the same as _update_schedule of the deferred-acceptance file. -/
def updateOperatorSchedule (schedule : List (Int × Int)) (startHour endHour : Int) :
    List (Int × Int) :=
  schedule.flatMap (fun s =>
    if startHour ≥ s.1 ∧ endHour ≤ s.2 then
      (if startHour > s.1 then [(s.1, startHour)] else []) ++
      (if endHour < s.2 then [(endHour, s.2)] else [])
    else [s])

/-- Embeds DeferredAcceptanceOptimizer._find_time_slot of
src/src/algorithms/deferred_acceptance.py lines 250-255: first free
slot at least duration long, returning its start. -/
def findTimeSlot (schedule : List (Int × Int)) (duration : Int) : Option Int :=
  (schedule.find? (fun s => s.2 - s.1 ≥ duration)).map (·.1)

/-- Embeds HeuristicOptimizer._calculate_assignment_score of
src/src/algorithms/heuristic.py lines 113-127 (rational model of the
float arithmetic). -/
def calculateAssignmentScore (o : Operator) (t : Task) (startHour now : Int) : ℚ :=
  calculatePriorityScore t now + ((17 : ℚ) - startHour) * (1/10) +
    o.getAvailableHours * (1/20)

/-- One operator step of HeuristicOptimizer._find_best_assignment
(src/src/algorithms/heuristic.py lines 64-92): skip operators failing
can_assign, then scan that operator's available slots keeping the
strictly best score seen so far. -/
def findBestFold (sm : String → Option (List String))
    (schedules : String → List (Int × Int)) (t : Task) (now : Int)
    (acc : Option (String × Int) × ℚ) (o : Operator) :
    Option (String × Int) × ℚ :=
  if canAssign sm o.operatorId t.taskId then
    (findAvailableSlots (schedules o.operatorId) t.requiredHours).foldl
      (fun acc2 startHour =>
        let score := calculateAssignmentScore o t startHour now
        if score > acc2.2 then (some (o.operatorId, startHour), score) else acc2)
      acc
  else acc

/-- Embeds HeuristicOptimizer._find_best_assignment.  The initial best
score is -1 as in the source.  The final Python truthiness test
(if best_operator) is false for None and for the empty id string. -/
def findBestAssignment (operators : List Operator)
    (sm : String → Option (List String))
    (schedules : String → List (Int × Int)) (t : Task) (now : Int) :
    Option (String × Int) :=
  let r := operators.foldl (findBestFold sm schedules t now) (none, -1)
  match r.1 with
  | some (oid, s) => if oid = "" then none else some (oid, s)
  | none => none

/-- Initial per-operator free-slot table of the greedy phase: each
operator maps to the single interval from its work start hour to its
work end hour.  Duplicate operator ids overwrite earlier dict entries
in Python, hence the reverse-find; ids absent from the dict would
raise KeyError in the source and return the empty list here. -/
def initialSchedules (operators : List Operator) : String → List (Int × Int) :=
  fun oid =>
    match operators.reverse.find? (fun o => o.operatorId = oid) with
    | some o => [(o.workStart, o.workEnd)]
    | none => []

/-- One task of the greedy loop: find the best candidate, record the
assignment and occupy the slot, or leave the state unchanged when no
candidate exists (tasks with no feasible slot stay unassigned). -/
def greedyStep (operators : List Operator) (sm : String → Option (List String))
    (now : Int) (acc : (String → List (Int × Int)) × List Assignment)
    (t : Task) : (String → List (Int × Int)) × List Assignment :=
  match findBestAssignment operators sm acc.1 t now with
  | some (oid, startHour) =>
    (fun x => if x = oid then
        updateOperatorSchedule (acc.1 oid) startHour (startHour + t.requiredHours)
      else acc.1 x,
     acc.2 ++ [⟨oid, t.taskId, startHour, t.requiredHours⟩])
  | none => acc

/-- Embeds HeuristicOptimizer._greedy_assignment of
src/src/algorithms/heuristic.py lines 29-62: sort tasks by descending
priority score (Python sorted is stable), then repeatedly take the
best scoring (operator, start) candidate and occupy it. -/
def greedyAssignment (operators : List Operator) (tasks : List Task) (now : Int) :
    ScheduleResult :=
  ⟨"heuristic",
    ((tasks.mergeSort
        (fun a b => calculatePriorityScore b now ≤ calculatePriorityScore a now)).foldl
      (greedyStep operators (computeSkillMatching operators tasks) now)
      (initialSchedules operators, [])).2⟩

/-- Embeds HeuristicOptimizer._is_valid_assignment of
src/src/algorithms/heuristic.py lines 315-330: the candidate must not
overlap in time with any same-operator assignment in the list, the
entry at skipIndex excepted (skipIndex is -1 when nothing is skipped). -/
def isValidAssignment (a : Assignment) (others : List Assignment) (skipIndex : Int) :
    Bool :=
  others.enum.all (fun p =>
    if skipIndex ≥ 0 ∧ (p.1 : Int) = skipIndex then true
    else if p.2.operatorId = a.operatorId then
      decide (a.endHour ≤ p.2.startHour ∨ a.startHour ≥ p.2.endHour)
    else true)

/-- Placeholder assignment for indexed access; every index used below
is in bounds, so the default is never produced. -/
def defaultAssignment : Assignment := ⟨"", "", 0, 0⟩

/-- Model of random.sample(range(n), 2): two draws from the oracle are
turned into two distinct indices below n (callers guarantee 2 ≤ n). -/
def sampleTwo (n r1 r2 : ℕ) : ℕ × ℕ :=
  let i := r1 % n
  let k := r2 % (n - 1)
  (i, if k ≥ i then k + 1 else k)

/-- Embeds HeuristicOptimizer._try_swap_assignments of
src/src/algorithms/heuristic.py lines 188-232: exchange the operators
of two randomly chosen assignments; the move is dropped when either
swapped placement conflicts (validated against the original list,
skipping the respective index). -/
def trySwapAssignments (r1 r2 : ℕ) (result : ScheduleResult) :
    Option ScheduleResult :=
  let assignments := result.assignments
  if assignments.length < 2 then none
  else
    let idx := sampleTwo assignments.length r1 r2
    let a1 := assignments.getD idx.1 defaultAssignment
    let a2 := assignments.getD idx.2 defaultAssignment
    let new1 : Assignment := ⟨a2.operatorId, a1.taskId, a1.startHour, a1.durationHours⟩
    let new2 : Assignment := ⟨a1.operatorId, a2.taskId, a2.startHour, a2.durationHours⟩
    if isValidAssignment new1 assignments (idx.1 : Int) &&
       isValidAssignment new2 assignments (idx.2 : Int) then
      some ⟨result.algorithmType,
        assignments.enum.map (fun p =>
          if p.1 = idx.1 then new1 else if p.1 = idx.2 then new2 else p.2)⟩
    else none

/-- Embeds HeuristicOptimizer._try_move_assignment of
src/src/algorithms/heuristic.py lines 234-270: relocate one randomly
chosen assignment to the first conflict-free other start hour inside
its operator window.  A missing operator id would raise StopIteration
in the source; it yields none here and is unreachable from the
strategy entry point. -/
def tryMoveAssignment (r : ℕ) (operators : List Operator)
    (result : ScheduleResult) : Option ScheduleResult :=
  let assignments := result.assignments
  if assignments.isEmpty then none
  else
    let assignment := assignments.getD (r % assignments.length) defaultAssignment
    match operators.find? (fun o => o.operatorId = assignment.operatorId) with
    | none => none
    | some operator =>
      let others := assignments.filter (fun a => a ≠ assignment)
      let candidates := (intRange operator.workStart
          (operator.workEnd - assignment.durationHours + 1)).filter
          (fun ns => ns ≠ assignment.startHour)
      match candidates.find? (fun ns =>
          isValidAssignment
            ⟨assignment.operatorId, assignment.taskId, ns, assignment.durationHours⟩
            others (-1)) with
      | some ns =>
        some ⟨result.algorithmType,
          others ++ [⟨assignment.operatorId, assignment.taskId, ns,
            assignment.durationHours⟩]⟩
      | none => none

/-- Embeds HeuristicOptimizer._try_reassign_task of
src/src/algorithms/heuristic.py lines 272-313: move one randomly
chosen assignment to the first eligible other operator and start hour
that is conflict free. -/
def tryReassignTask (r : ℕ) (operators : List Operator) (tasks : List Task)
    (sm : String → Option (List String)) (result : ScheduleResult) :
    Option ScheduleResult :=
  let assignments := result.assignments
  if assignments.isEmpty then none
  else
    let assignment := assignments.getD (r % assignments.length) defaultAssignment
    match tasks.find? (fun t => t.taskId = assignment.taskId) with
    | none => none
    | some task =>
      let others := assignments.filter (fun a => a ≠ assignment)
      operators.findSome? (fun o =>
        if o.operatorId = assignment.operatorId then none
        else if ¬ canAssign sm o.operatorId task.taskId then none
        else
          ((intRange o.workStart (o.workEnd - task.requiredHours + 1)).find?
            (fun sh => isValidAssignment
              ⟨o.operatorId, task.taskId, sh, task.requiredHours⟩ others (-1))).map
            (fun sh => ⟨result.algorithmType,
              others ++ [⟨o.operatorId, task.taskId, sh, task.requiredHours⟩]⟩))

/-- Embeds HeuristicOptimizer._try_improvements of
src/src/algorithms/heuristic.py lines 165-186.  The picks stream
models the shared module-level random generator: successive draws feed
the moves in the order the source consumes them. -/
def tryImprovements (picks : ℕ → ℕ) (operators : List Operator)
    (tasks : List Task) (sm : String → Option (List String))
    (result : ScheduleResult) : Option ScheduleResult :=
  if result.assignments.isEmpty then none
  else
    let s1 := if result.assignments.length ≥ 2 then
        trySwapAssignments (picks 0) (picks 1) result
      else none
    match s1 with
    | some r => some r
    | none =>
      match tryMoveAssignment (picks 2) operators result with
      | some r => some r
      | none => tryReassignTask (picks 3) operators tasks sm result

/-- Embeds HeuristicOptimizer._evaluate_solution of
src/src/algorithms/heuristic.py lines 332-358 (rational model; the
task and operator lookups raise StopIteration in the source when an id
is unknown, contributing zero here, unreachable from the strategy
entry point). -/
def evaluateSolution (operators : List Operator) (tasks : List Task)
    (result : ScheduleResult) (now : Int) : ℚ :=
  if result.assignments.isEmpty then 0
  else
    let base : ℚ := (result.assignments.length : ℚ) * 10
    let prio : ℚ := (result.assignments.map (fun a =>
      match tasks.find? (fun t => t.taskId = a.taskId) with
      | some t => calculatePriorityScore t now
      | none => 0)).sum
    let opIds := (result.assignments.map (·.operatorId)).dedup
    let penalty : ℚ := (opIds.map (fun oid =>
      let hours : Int := ((result.assignments.filter
        (fun a => a.operatorId = oid)).map (·.durationHours)).sum
      match operators.find? (fun o => o.operatorId = oid) with
      | some o =>
        if (hours : ℚ) > o.getAvailableHours then
          ((hours : ℚ) - o.getAvailableHours) * 20
        else 0
      | none => 0)).sum
    base + prio - penalty

/-- One improvement iteration: try a move on the current best and keep
it only on strict score improvement. -/
def improveStep (picks : ℕ → ℕ → ℕ) (operators : List Operator)
    (tasks : List Task) (sm : String → Option (List String)) (now : Int)
    (acc : ScheduleResult × ℚ) (it : ℕ) : ScheduleResult × ℚ :=
  match tryImprovements (picks it) operators tasks sm acc.1 with
  | some improved =>
    let s := evaluateSolution operators tasks improved now
    if s > acc.2 then (improved, s) else acc
  | none => acc

/-- Embeds HeuristicOptimizer._improve_solution of
src/src/algorithms/heuristic.py lines 147-163: a fixed budget of
hill-climbing iterations, keeping a candidate only on strict score
improvement.  The picks argument supplies the random draws of
iteration number i as picks i. -/
def improveSolution (picks : ℕ → ℕ → ℕ) (operators : List Operator)
    (tasks : List Task) (sm : String → Option (List String)) (now : Int)
    (iterations : ℕ) (result : ScheduleResult) : ScheduleResult :=
  ((List.range iterations).foldl (improveStep picks operators tasks sm now)
    (result, evaluateSolution operators tasks result now)).1

/-- Embeds HeuristicOptimizer._optimize of
src/src/algorithms/heuristic.py lines 19-27: greedy construction
followed by local improvement. -/
def heuristicOptimize (picks : ℕ → ℕ → ℕ) (iterations : ℕ)
    (operators : List Operator) (tasks : List Task) (now : Int) :
    ScheduleResult :=
  improveSolution picks operators tasks (computeSkillMatching operators tasks)
    now iterations (greedyAssignment operators tasks now)

/-- Stable sort of assignments by start hour, Python sorted with the
start_hour key. -/
def sortByStart (l : List Assignment) : List Assignment :=
  l.mergeSort (fun a b => decide (a.startHour ≤ b.startHour))

/-- Adjacent-pair overlap messages of validate_result
(src/src/algorithms/base.py lines 198-205); the list is already
sorted by start hour when this runs. -/
def overlapErrors (oid : String) (sorted : List Assignment) : List String :=
  (sorted.zip sorted.tail).flatMap (fun p =>
    if p.1.endHour > p.2.startHour then
      ["Time overlap for operator " ++ oid ++ ": Task " ++ p.1.taskId ++
        " and " ++ p.2.taskId]
    else [])

/-- Working-window messages of validate_result
(src/src/algorithms/base.py lines 207-216). -/
def windowErrors (oid : String) (ws we : Int) (group : List Assignment) :
    List String :=
  group.flatMap (fun a =>
    if a.startHour < ws ∨ a.endHour > we then
      ["Assignment outside working hours for operator " ++ oid ++ ": Task " ++
        a.taskId]
    else [])

/-- Per-operator part of validate_result: unknown operator id, else the
time-overlap check on the start-sorted group followed by the window
check.  The operator map keeps the last entry per id, as a Python dict
built from the operator list does. -/
def operatorErrors (operators : List Operator) (oid : String)
    (group : List Assignment) : List String :=
  match operators.reverse.find? (fun o => o.operatorId = oid) with
  | none => ["Unknown operator ID: " ++ oid]
  | some op =>
    overlapErrors oid (sortByStart group) ++
      windowErrors oid op.workStart op.workEnd group

/-- One assignment of the duplicate check: report a message when the
task id was seen before, else record it as seen (the source writes
the dict entry unconditionally, which leaves the key set unchanged in
the duplicate case). -/
def duplicateTaskStep (acc : List String × List String) (a : Assignment) :
    List String × List String :=
  if acc.2.contains a.taskId then
    (acc.1 ++ ["Task " ++ a.taskId ++ " is assigned multiple times"], acc.2)
  else (acc.1, acc.2 ++ [a.taskId])

/-- Duplicate-task messages of validate_result
(src/src/algorithms/base.py lines 218-223): one message per repeated
occurrence of a task id. -/
def duplicateTaskErrors (assignments : List Assignment) : List String :=
  (assignments.foldl duplicateTaskStep ([], [])).1

/-- Violation messages of OptimizationAlgorithm.validate_result of
src/src/algorithms/base.py lines 175-225.  Assignments are grouped by
operator id in first-appearance order; the function is total: it
never raises. -/
def validationErrors (operators : List Operator) (result : ScheduleResult) :
    List String :=
  ((result.assignments.map (·.operatorId)).dedup).flatMap (fun oid =>
    operatorErrors operators oid
      (result.assignments.filter (fun a => a.operatorId = oid))) ++
  duplicateTaskErrors result.assignments

/-- Return value of validate_result: the success flag paired with the
violation list. -/
def validateResult (operators : List Operator) (result : ScheduleResult) :
    Bool × List String :=
  ((validationErrors operators result).isEmpty, validationErrors operators result)

/-- State of the deferred-acceptance matching loop
(src/src/algorithms/deferred_acceptance.py lines 116-183): the matches
dict from operator id to held task id, the rejection sets per task,
and the free task set.  The Python sets are modelled as duplicate-free
lists; iteration order of the free set is unspecified in the source
and the properties proved below hold for any order. -/
structure DAState where
  matchesMap : List (String × String)
  rejectedBy : String → List String
  free : List String

/-- Dict lookup on an association list keyed by the first component. -/
def lookupAssoc (l : List (String × String)) (k : String) : Option String :=
  (l.find? (fun p => p.1 = k)).map (·.2)

/-- Dict write: replace the value of an existing key in place, else
append a new entry, exactly the Python dict update semantics. -/
def updateAssoc (l : List (String × String)) (k v : String) :
    List (String × String) :=
  if (l.find? (fun p => p.1 = k)).isSome then
    l.map (fun p => if p.1 = k then (k, v) else p)
  else l ++ [(k, v)]

/-- Set insertion into a rejection set. -/
def addRej (rej : String → List String) (t o : String) : String → List String :=
  fun x => if x = t then (if (rej t).contains o then rej t else rej t ++ [o])
    else rej x

/-- Set insertion into the free task set. -/
def addFree (free : List String) (t : String) : List String :=
  if free.contains t then free else free ++ [t]

/-- Embeds DeferredAcceptanceOptimizer._operator_prefers_task of
src/src/algorithms/deferred_acceptance.py lines 185-207: compare list
indices, a missing task defaulting to the list length, which is
exactly what List.indexOf returns for a missing element.  An operator
absent from the preference dict maps to the empty list, making the
comparison 0 less-than 0, false, as in the source early return. -/
def operatorPrefersTask (oppF : String → List String) (o t1 t2 : String) : Bool :=
  (oppF o).indexOf t1 < (oppF o).indexOf t2

/-- In-round state: the boundary state plus the current_proposals dict
of the running round. -/
structure DARound where
  st : DAState
  cp : List (String × String)

/-- One free task making its proposal, the body of the inner for loop
of _deferred_acceptance (src/src/algorithms/deferred_acceptance.py
lines 134-164).  A task with no remaining candidate operator leaves
the free set; otherwise it proposes to its first non-rejecting
operator, competing with any proposal that operator already holds this
round. -/
def processTask (tpF oppF : String → List String) (r : DARound) (t : String) :
    DARound :=
  if (tpF t).isEmpty then
    ⟨⟨r.st.matchesMap, r.st.rejectedBy, r.st.free.erase t⟩, r.cp⟩
  else
    match (tpF t).find? (fun o => ¬ (r.st.rejectedBy t).contains o) with
    | none => ⟨⟨r.st.matchesMap, r.st.rejectedBy, r.st.free.erase t⟩, r.cp⟩
    | some preferred =>
      match lookupAssoc r.cp preferred with
      | some competing =>
        if operatorPrefersTask oppF preferred t competing then
          ⟨⟨r.st.matchesMap, addRej r.st.rejectedBy competing preferred,
            addFree r.st.free competing⟩,
           updateAssoc r.cp preferred t⟩
        else
          ⟨⟨r.st.matchesMap, addRej r.st.rejectedBy t preferred, r.st.free⟩, r.cp⟩
      | none => ⟨r.st, r.cp ++ [(preferred, t)]⟩

/-- Round-end merge of one accepted proposal into the matches dict
(src/src/algorithms/deferred_acceptance.py lines 166-176).  Note the
source releases a previously held task unconditionally, without
consulting the operator preference list. -/
def mergeProposal (st : DAState) (p : String × String) : DAState :=
  let st1 : DAState :=
    match lookupAssoc st.matchesMap p.1 with
    | some oldTask =>
      if oldTask ≠ p.2 then
        ⟨st.matchesMap, addRej st.rejectedBy oldTask p.1, addFree st.free oldTask⟩
      else st
    | none => st
  ⟨updateAssoc st1.matchesMap p.1 p.2, st1.rejectedBy, st1.free.erase p.2⟩

/-- One round of the matching loop: snapshot the free set, let every
snapshot task propose, then merge the surviving proposals. -/
def daRound (tpF oppF : String → List String) (st : DAState) : DAState :=
  let r := st.free.foldl (processTask tpF oppF) ⟨st, []⟩
  r.cp.foldl mergeProposal r.st

/-- The while loop of _deferred_acceptance with its iteration cap as
fuel: it stops as soon as the free set is empty or the cap is hit. -/
def daLoop (tpF oppF : String → List String) : ℕ → DAState → DAState
  | 0, st => st
  | fuel + 1, st =>
    if st.free.isEmpty then st else daLoop tpF oppF fuel (daRound tpF oppF st)

/-- Initial loop state: no matches, no rejections, every task free. -/
def initialDAState (taskIds : List String) : DAState :=
  ⟨[], fun _ => [], taskIds⟩

/-- The final task-to-operator map returned by _deferred_acceptance
(src/src/algorithms/deferred_acceptance.py lines 178-183): the matches
dict reversed entry by entry. -/
def reverseMatches (m : List (String × String)) : List (String × String) :=
  m.foldl (fun acc p => updateAssoc acc p.2 p.1) []

/-- Embeds _deferred_acceptance as a whole: run the capped loop from
the initial state and reverse the matches dict. -/
def deferredAcceptance (tpF oppF : String → List String)
    (taskIds : List String) (maxIterations : ℕ) : List (String × String) :=
  reverseMatches (daLoop tpF oppF maxIterations (initialDAState taskIds)).matchesMap

/-- One matched pair of the packing loop: place the task first-fit into
the free slots of its matched operator and occupy the range, or drop
the pair when no slot fits. -/
def packStep (acc : (String → List (Int × Int)) × List Assignment)
    (pair : Task × String) : (String → List (Int × Int)) × List Assignment :=
  match findTimeSlot (acc.1 pair.2) pair.1.requiredHours with
  | some startHour =>
    (fun x => if x = pair.2 then
        updateSchedule (acc.1 pair.2) startHour
          (startHour + pair.1.requiredHours)
      else acc.1 x,
     acc.2 ++ [⟨pair.2, pair.1.taskId, startHour, pair.1.requiredHours⟩])
  | none => acc

/-- The matched pairs of the packing loop, each task id resolved
against the task list (matched_tasks in the source). -/
def matchedPairs (tasks : List Task) (matchesList : List (String × String)) :
    List (Task × String) :=
  matchesList.filterMap (fun p =>
    (tasks.find? (fun t => t.taskId = p.1)).map (fun t => (t, p.2)))

/-- The matched pairs sorted by descending priority score (Python
sorted with reverse, stable). -/
def sortedMatchedPairs (tasks : List Task)
    (matchesList : List (String × String)) (now : Int) : List (Task × String) :=
  (matchedPairs tasks matchesList).mergeSort
    (fun a b => calculatePriorityScore b.1 now ≤ calculatePriorityScore a.1 now)

/-- Embeds DeferredAcceptanceOptimizer._create_schedule_result of
src/src/algorithms/deferred_acceptance.py lines 209-248: sort the
matched pairs by descending priority score and place each task
first-fit into the free slots of its matched operator, dropping pairs
with no fitting slot. -/
def createScheduleResult (operators : List Operator) (tasks : List Task)
    (matchesList : List (String × String)) (now : Int) : ScheduleResult :=
  ⟨"deferred_acceptance",
    ((sortedMatchedPairs tasks matchesList now).foldl packStep
      (initialSchedules operators, [])).2⟩

/-- Embeds DeferredAcceptanceOptimizer._optimize
(src/src/algorithms/deferred_acceptance.py lines 19-31) modulo
preference construction: the preference tables are parameters because
the source builds them with seeded random jitter; quantifying over all
tables covers every jitter outcome.  The free set starts from the
task_preferences keys, one entry per distinct task id in input
order. -/
def daOptimize (tpF oppF : String → List String) (operators : List Operator)
    (tasks : List Task) (maxIterations : ℕ) (now : Int) : ScheduleResult :=
  createScheduleResult operators tasks
    (deferredAcceptance tpF oppF ((tasks.map (·.taskId)).dedup) maxIterations)
    now

/-- Whether task t prefers operator o to its current match (an
unmatched task prefers any listed operator), preference order given by
position in the preference list. -/
def taskPrefersOver (tpF : String → List String) (t o : String)
    (cur : Option String) : Bool :=
  match cur with
  | none => true
  | some mo => (tpF t).indexOf o < (tpF t).indexOf mo

/-- Whether operator o prefers task t to its current held task (an
unmatched operator prefers any task). -/
def opPrefersOver (oppF : String → List String) (o t : String)
    (cur : Option String) : Bool :=
  match cur with
  | none => true
  | some mt => (oppF o).indexOf t < (oppF o).indexOf mt

/-- Match of task t under the operator-keyed matches dict m, read off
the reversed dict exactly as the source returns it. -/
def taskMatchOf (m : List (String × String)) (t : String) : Option String :=
  lookupAssoc (reverseMatches m) t

/-- Gale-Shapley blocking pair for the emitted matching: o is on the
preference list of t, t prefers o to its match (or is unmatched), and
o prefers t to its held task (or is unmatched). -/
def isBlockingPair (tpF oppF : String → List String)
    (m : List (String × String)) (t o : String) : Bool :=
  (tpF t).contains o &&
  taskPrefersOver tpF t o (taskMatchOf m t) &&
  opPrefersOver oppF o t (lookupAssoc m o)

/-- Priority score written exactly as the claim states it: base score
by tier, plus a deadline-urgency bonus, plus one half for short
tasks (refinement-side definition, following the claim wording). -/
def specDeadlineBonus (t : Task) (now : Int) : ℚ :=
  match daysUntilDeadline t now with
  | none => 0
  | some days => if days ≤ 1 then 3 else if days ≤ 3 then 2
      else if days ≤ 7 then 1 else 0

/-- Claim-side priority score: tier base plus deadline bonus plus the
short-task half point. -/
def specPriorityScore (t : Task) (now : Int) : ℚ :=
  (match t.priority with
   | .LOW => 1
   | .MEDIUM => 2
   | .HIGH => 3
   | .URGENT => 4) +
  specDeadlineBonus t now +
  (if t.requiredHours ≤ 2 then 1/2 else 0)

/-- The residual segments the occupy operation leaves of the slot it
splits. -/
def residualsOf (s0 e0 st en : Int) : List (Int × Int) :=
  (if s0 < st then [(s0, st)] else []) ++ (if en < e0 then [(en, e0)] else [])

/-- Semantic disjointness of two half-open integer intervals: they
share no point.  For nonempty intervals this is the usual one ends
before the other starts; an empty interval is disjoint from
everything. -/
def ivDisj (p q : Int × Int) : Prop :=
  min p.2 q.2 ≤ max p.1 q.1

instance (p q : Int × Int) : Decidable (ivDisj p q) := by
  unfold ivDisj
  infer_instance

/-- The time intervals of the assignments of one operator inside an
assignment list. -/
def assignIntervals (oid : String) (l : List Assignment) : List (Int × Int) :=
  (l.filter (fun a => a.operatorId = oid)).map (fun a => (a.startHour, a.endHour))

/-- Invariant bundle of the deferred-acceptance loop, stated on an
in-round state (the boundary case is cp = []).  rejHeld: only
operators currently holding a task or a live proposal ever rejected
anyone.  topDown: every held or proposed pairing sits at the first
non-rejected position of the task preference list, every earlier
operator having rejected the task.  settled: a task missing from the
free set is held, proposed, or has exhausted its whole preference
list.  The key lists of both dicts are duplicate free. -/
structure DARoundInv (T : List String) (tpF : String → List String)
    (r : DARound) : Prop where
  rejHeld : ∀ t o, o ∈ r.st.rejectedBy t →
    (lookupAssoc r.st.matchesMap o).isSome = true ∨
      (lookupAssoc r.cp o).isSome = true
  topDown : ∀ o t, ((o, t) ∈ r.st.matchesMap ∨ (o, t) ∈ r.cp) →
    ∃ l1 l2, tpF t = l1 ++ o :: l2 ∧ ∀ x ∈ l1, x ∈ r.st.rejectedBy t
  settled : ∀ t ∈ T, t ∉ r.st.free →
    (∃ o, (o, t) ∈ r.st.matchesMap) ∨ (∃ o, (o, t) ∈ r.cp) ∨
      ∀ o ∈ tpF t, o ∈ r.st.rejectedBy t
  mKeys : (r.st.matchesMap.map (·.1)).Nodup
  cpKeys : (r.cp.map (·.1)).Nodup

section Claims

/-- Symmetry of interval disjointness. -/
theorem ivDisj_symm {p q : Int × Int} (h : ivDisj p q) : ivDisj q p := by
  unfold ivDisj at *
  omega

/-- An interval ending before another starts is disjoint from it. -/
theorem ivDisj_of_le {p q : Int × Int} (h : p.2 ≤ q.1) : ivDisj p q := by
  unfold ivDisj
  omega

/-- Disjointness restricts to subintervals. -/
theorem ivDisj_sub {x : Int × Int} {S E a b : Int} (h : ivDisj x (S, E))
    (hS : S ≤ a) (hE : b ≤ E) : ivDisj x (a, b) := by
  unfold ivDisj at *
  simp only at *
  omega

/-- A flatMap whose function keeps every element fixed is the
identity. -/
theorem flatMap_eq_self {α : Type} (l : List α) (f : α → List α)
    (h : ∀ x ∈ l, f x = [x]) : l.flatMap f = l := by
  induction l with
  | nil => rfl
  | cons a t ih =>
    simp only [List.flatMap_cons, h a (List.mem_cons_self a t)]
    simp only [List.singleton_append, List.cons.injEq, true_and]
    exact ih (fun x hx => h x (List.mem_cons_of_mem a hx))

/-- Splitting behaviour of the occupy operation on a sorted disjoint
free list: writing the slot list as l1 ++ (s0, e0) :: l2 around the
targeted slot, every other slot is kept unchanged and the targeted
slot is replaced in place by its residual segments. -/
theorem updateSchedule_split_eq {l1 l2 : List (Int × Int)} {st d s0 e0 : Int}
    (hpw : List.Pairwise (fun p q => p.2 ≤ q.1) (l1 ++ (s0, e0) :: l2))
    (hd : 0 < d) (h1 : s0 ≤ st) (h2 : st + d ≤ e0) :
    updateSchedule (l1 ++ (s0, e0) :: l2) st (st + d) =
      l1 ++ residualsOf s0 e0 st (st + d) ++ l2 := by
  rw [List.pairwise_append] at hpw
  obtain ⟨hpw1, hpw2, hcross⟩ := hpw
  rw [List.pairwise_cons] at hpw2
  obtain ⟨hmid, hpw2t⟩ := hpw2
  unfold updateSchedule
  rw [List.flatMap_append, List.flatMap_cons]
  have hl1 : l1.flatMap (fun s =>
      if st ≥ s.1 ∧ st + d ≤ s.2 then
        (if st > s.1 then [(s.1, st)] else []) ++
        (if st + d < s.2 then [(st + d, s.2)] else [])
      else [s]) = l1 := by
    apply flatMap_eq_self
    intro x hx
    have hx2 : x.2 ≤ s0 := hcross x hx (s0, e0) (List.mem_cons_self _ _)
    rw [if_neg]
    omega
  have hl2 : l2.flatMap (fun s =>
      if st ≥ s.1 ∧ st + d ≤ s.2 then
        (if st > s.1 then [(s.1, st)] else []) ++
        (if st + d < s.2 then [(st + d, s.2)] else [])
      else [s]) = l2 := by
    apply flatMap_eq_self
    intro x hx
    have hx1 : e0 ≤ x.1 := hmid x hx
    rw [if_neg]
    omega
  rw [hl1, hl2, if_pos ⟨by omega, h2⟩]
  unfold residualsOf
  have : (st > s0) = (s0 < st) := propext ⟨fun h => h, fun h => h⟩
  simp only [gt_iff_lt, List.append_assoc]

/-- Every residual segment lies inside the split slot. -/
theorem residualsOf_bounds {s0 e0 st en : Int} (h1 : s0 ≤ st) (h2 : en ≤ e0)
    (h3 : st ≤ en) : ∀ m ∈ residualsOf s0 e0 st en, s0 ≤ m.1 ∧ m.2 ≤ e0 := by
  intro m hm
  unfold residualsOf at hm
  rw [List.mem_append] at hm
  rcases hm with hm | hm
  · split at hm
    · rw [List.mem_singleton] at hm
      subst hm
      exact ⟨by omega, by simp only; omega⟩
    · simp at hm
  · split at hm
    · rw [List.mem_singleton] at hm
      subst hm
      exact ⟨by simp only; omega, by omega⟩
    · simp at hm

/-- The residual segments are themselves sorted and disjoint. -/
theorem residualsOf_pairwise {s0 e0 st en : Int} (h : st ≤ en) :
    List.Pairwise (fun p q : Int × Int => p.2 ≤ q.1) (residualsOf s0 e0 st en) := by
  unfold residualsOf
  split <;> split <;> (simp; try omega)

/-- C7: on a sorted pairwise-disjoint free list, occupying a range of
positive length d contained in the member slot (s0, e0) rewrites the
list with exactly the residual segments of that slot in its place, the
pre-segment present exactly when s0 is strictly below the start, the
post-segment exactly when the range end is strictly below e0, all
other slots unchanged, and the resulting list is again sorted and
pairwise disjoint; moreover the heuristic copy of the operation is the
same function as the deferred-acceptance one. -/
theorem c7_occupy_splits_slot (slots : List (Int × Int)) (st d s0 e0 : Int)
    (hpw : List.Pairwise (fun p q => p.2 ≤ q.1) slots) (hd : 0 < d)
    (hmem : (s0, e0) ∈ slots) (h1 : s0 ≤ st) (h2 : st + d ≤ e0) :
    (∃ l1 l2, slots = l1 ++ (s0, e0) :: l2 ∧
      updateSchedule slots st (st + d) =
        l1 ++ ((if s0 < st then [(s0, st)] else []) ++
          (if st + d < e0 then [(st + d, e0)] else [])) ++ l2) ∧
    List.Pairwise (fun p q => p.2 ≤ q.1) (updateSchedule slots st (st + d)) ∧
    List.Pairwise ivDisj (updateSchedule slots st (st + d)) ∧
    (∀ (sched : List (Int × Int)) (a b : Int),
      updateOperatorSchedule sched a b = updateSchedule sched a b) := by
  obtain ⟨l1, l2, rfl⟩ := List.append_of_mem hmem
  have heq := updateSchedule_split_eq hpw hd h1 h2
  have hRpw : List.Pairwise (fun p q : Int × Int => p.2 ≤ q.1)
      (l1 ++ residualsOf s0 e0 st (st + d) ++ l2) := by
    rw [List.pairwise_append] at hpw
    obtain ⟨hpw1, hpw2, hcross⟩ := hpw
    rw [List.pairwise_cons] at hpw2
    obtain ⟨hmid, hpw2t⟩ := hpw2
    have hbounds := residualsOf_bounds h1 h2 (by omega)
    rw [List.append_assoc, List.pairwise_append]
    refine ⟨hpw1, ?_, ?_⟩
    · rw [List.pairwise_append]
      refine ⟨residualsOf_pairwise (by omega), hpw2t, ?_⟩
      intro m hm b hb
      have := (hbounds m hm).2
      have := hmid b hb
      omega
    · intro a ha b hb
      have ha2 : a.2 ≤ s0 := hcross a ha (s0, e0) (List.mem_cons_self _ _)
      rw [List.mem_append] at hb
      rcases hb with hb | hb
      · have := (hbounds b hb).1
        omega
      · exact hcross a ha b (List.mem_cons_of_mem _ hb)
  refine ⟨⟨l1, l2, rfl, by rw [heq]; rfl⟩, by rw [heq]; exact hRpw, ?_, fun _ _ _ => rfl⟩
  rw [heq]
  exact hRpw.imp (fun h => ivDisj_of_le h)

/-- C7 witness: the theorem applied to the single free window 9 to 17
occupied at 10 for 2 hours, splitting into the residuals (9, 10) and
(12, 17). -/
theorem c7_occupy_splits_slot_witness :
    (∃ l1 l2, ([((9 : Int), (17 : Int))]) = l1 ++ ((9 : Int), (17 : Int)) :: l2 ∧
      updateSchedule [((9 : Int), (17 : Int))] 10 (10 + 2) =
        l1 ++ ((if (9 : Int) < 10 then [((9 : Int), (10 : Int))] else []) ++
          (if (10 : Int) + 2 < 17 then [((10 : Int) + 2, (17 : Int))] else [])) ++ l2) ∧
    List.Pairwise (fun p q : Int × Int => p.2 ≤ q.1)
      (updateSchedule [((9 : Int), (17 : Int))] 10 (10 + 2)) ∧
    List.Pairwise ivDisj (updateSchedule [((9 : Int), (17 : Int))] 10 (10 + 2)) ∧
    (∀ (sched : List (Int × Int)) (a b : Int),
      updateOperatorSchedule sched a b = updateSchedule sched a b) :=
  c7_occupy_splits_slot [(9, 17)] 10 2 9 17 (by decide) (by decide) (by decide)
    (by decide) (by decide)

/-- Core splitting equation of the occupy operation, given directly
that the slots around the targeted one do not contain the occupied
range. -/
theorem updateSchedule_untouched_split {l1 l2 : List (Int × Int)}
    {st en s0 e0 : Int}
    (hf1 : ∀ x ∈ l1, ¬(st ≥ x.1 ∧ en ≤ x.2))
    (hf2 : ∀ x ∈ l2, ¬(st ≥ x.1 ∧ en ≤ x.2))
    (hin1 : st ≥ s0) (hin2 : en ≤ e0) :
    updateSchedule (l1 ++ (s0, e0) :: l2) st en =
      l1 ++ residualsOf s0 e0 st en ++ l2 := by
  unfold updateSchedule
  rw [List.flatMap_append, List.flatMap_cons]
  rw [flatMap_eq_self l1 _ (fun x hx => by rw [if_neg (hf1 x hx)]),
    flatMap_eq_self l2 _ (fun x hx => by rw [if_neg (hf2 x hx)])]
  rw [if_pos ⟨hin1, hin2⟩]
  unfold residualsOf
  simp only [gt_iff_lt, List.append_assoc]

/-- Specification of the first-fit search: a successful result is the
start of a member slot long enough for the duration. -/
theorem findTimeSlot_spec {slots : List (Int × Int)} {d st : Int}
    (h : findTimeSlot slots d = some st) :
    ∃ e0, (st, e0) ∈ slots ∧ d ≤ e0 - st := by
  unfold findTimeSlot at h
  cases hf : slots.find? (fun s => s.2 - s.1 ≥ d) with
  | none => rw [hf] at h; simp at h
  | some p =>
    rw [hf] at h
    simp only [Option.map_some', Option.some.injEq] at h
    have hm := List.mem_of_find?_eq_some hf
    have hp := List.find?_some hf
    simp only [ge_iff_le, decide_eq_true_eq] at hp
    refine ⟨p.2, ?_, by omega⟩
    rw [← h]
    simpa using hm

/-- Occupying a successfully found first-fit range of positive length
preserves joint pairwise disjointness of the free slots together with
any list of already-occupied intervals, the new interval included. -/
theorem update_step_PD {slots rest : List (Int × Int)} {st d : Int}
    (hpd : List.Pairwise ivDisj (slots ++ rest)) (hd : 0 < d)
    (hfind : findTimeSlot slots d = some st) :
    List.Pairwise ivDisj
      (updateSchedule slots st (st + d) ++ (st, st + d) :: rest) := by
  obtain ⟨e0, hmem, he⟩ := findTimeSlot_spec hfind
  obtain ⟨l1, l2, rfl⟩ := List.append_of_mem hmem
  rw [List.append_assoc] at hpd
  rw [List.cons_append] at hpd
  rw [List.pairwise_append] at hpd
  obtain ⟨P1, P2, Cr1⟩ := hpd
  rw [List.pairwise_cons] at P2
  obtain ⟨hmid, P3⟩ := P2
  have PL2 := (List.pairwise_append.mp P3).1
  have PR := (List.pairwise_append.mp P3).2.1
  have Cr2 := (List.pairwise_append.mp P3).2.2
  have hx1 : ∀ x ∈ l1, ivDisj x (st, e0) :=
    fun x hx => Cr1 x hx (st, e0) (List.mem_cons_self _ _)
  have hx2 : ∀ x ∈ l2, ivDisj (st, e0) x :=
    fun x hx => hmid x (List.mem_append_left rest hx)
  have hx3 : ∀ y ∈ rest, ivDisj (st, e0) y :=
    fun y hy => hmid y (List.mem_append_right l2 hy)
  have hf1 : ∀ x ∈ l1, ¬(st ≥ x.1 ∧ st + d ≤ x.2) := by
    intro x hx hcon
    have hdj := hx1 x hx
    unfold ivDisj at hdj
    omega
  have hf2 : ∀ x ∈ l2, ¬(st ≥ x.1 ∧ st + d ≤ x.2) := by
    intro x hx hcon
    have hdj := hx2 x hx
    unfold ivDisj at hdj
    omega
  rw [updateSchedule_untouched_split hf1 hf2 (le_refl st) (by omega)]
  have hres : residualsOf st e0 st (st + d) =
      if st + d < e0 then [(st + d, e0)] else [] := by
    unfold residualsOf
    rw [if_neg (lt_irrefl st), List.nil_append]
  have d1 : ∀ x ∈ l1, ivDisj x (st, st + d) :=
    fun x hx => ivDisj_sub (hx1 x hx) (le_refl st) (by omega)
  have d2 : ∀ x ∈ l1, ivDisj x (st + d, e0) :=
    fun x hx => ivDisj_sub (hx1 x hx) (by omega) (le_refl e0)
  have d3 : ∀ x ∈ l2, ivDisj (st + d, e0) x :=
    fun x hx => ivDisj_symm (ivDisj_sub (ivDisj_symm (hx2 x hx)) (by omega) (le_refl e0))
  have d4 : ∀ x ∈ l2, ivDisj x (st, st + d) :=
    fun x hx => ivDisj_sub (ivDisj_symm (hx2 x hx)) (le_refl st) (by omega)
  have d5 : ∀ y ∈ rest, ivDisj (st, st + d) y :=
    fun y hy => ivDisj_symm (ivDisj_sub (ivDisj_symm (hx3 y hy)) (le_refl st) (by omega))
  have d6 : ∀ y ∈ rest, ivDisj (st + d, e0) y :=
    fun y hy => ivDisj_symm (ivDisj_sub (ivDisj_symm (hx3 y hy)) (by omega) (le_refl e0))
  have d7 : ivDisj (st + d, e0) (st, st + d) := by
    unfold ivDisj
    simp only
    omega
  have dmidrest : ∀ y ∈ rest, ivDisj (st, st + d) y := d5
  rw [hres]
  by_cases hcase : st + d < e0
  · rw [if_pos hcase]
    simp only [List.append_assoc, List.singleton_append, List.cons_append,
      List.nil_append]
    refine List.pairwise_append.mpr ⟨P1, ?_, ?_⟩
    · refine List.pairwise_cons.mpr ⟨?_, ?_⟩
      · intro b hb
        rcases List.mem_append.mp hb with hb | hb
        · exact d3 b hb
        · rcases List.mem_cons.mp hb with rfl | hb
          · exact d7
          · exact d6 b hb
      · refine List.pairwise_append.mpr ⟨PL2, ?_, ?_⟩
        · exact List.pairwise_cons.mpr ⟨dmidrest, PR⟩
        · intro x hx y hy
          rcases List.mem_cons.mp hy with rfl | hy
          · exact d4 x hx
          · exact Cr2 x hx y hy
    · intro a ha b hb
      rcases List.mem_cons.mp hb with rfl | hb
      · exact d2 a ha
      · rcases List.mem_append.mp hb with hb | hb
        · exact Cr1 a ha b (List.mem_cons_of_mem _ (List.mem_append_left rest hb))
        · rcases List.mem_cons.mp hb with rfl | hb
          · exact d1 a ha
          · exact Cr1 a ha b (List.mem_cons_of_mem _ (List.mem_append_right l2 hb))
  · rw [if_neg hcase]
    simp only [List.nil_append, List.append_assoc, List.cons_append]
    refine List.pairwise_append.mpr ⟨P1, ?_, ?_⟩
    · refine List.pairwise_append.mpr ⟨PL2, ?_, ?_⟩
      · exact List.pairwise_cons.mpr ⟨dmidrest, PR⟩
      · intro x hx y hy
        rcases List.mem_cons.mp hy with rfl | hy
        · exact d4 x hx
        · exact Cr2 x hx y hy
    · intro a ha b hb
      rcases List.mem_append.mp hb with hb | hb
      · exact Cr1 a ha b (List.mem_cons_of_mem _ (List.mem_append_left rest hb))
      · rcases List.mem_cons.mp hb with rfl | hb
        · exact d1 a ha
        · exact Cr1 a ha b (List.mem_cons_of_mem _ (List.mem_append_right l2 hb))

/-- Appending one assignment extends exactly the interval list of its
own operator. -/
theorem assignIntervals_append {oid : String} {l : List Assignment}
    {a : Assignment} :
    assignIntervals oid (l ++ [a]) =
      assignIntervals oid l ++
        (if a.operatorId = oid then [(a.startHour, a.endHour)] else []) := by
  unfold assignIntervals
  rw [List.filter_append, List.map_append]
  by_cases h : a.operatorId = oid <;> simp [h]

/-- One packing step preserves, for every operator, joint pairwise
disjointness of the free slots and the occupied intervals. -/
theorem packStep_inv {acc : (String → List (Int × Int)) × List Assignment}
    {pair : Task × String} (hd : 1 ≤ pair.1.requiredHours)
    (hinv : ∀ oid, List.Pairwise ivDisj (acc.1 oid ++ assignIntervals oid acc.2)) :
    ∀ oid, List.Pairwise ivDisj
      ((packStep acc pair).1 oid ++ assignIntervals oid (packStep acc pair).2) := by
  intro oid
  unfold packStep
  cases hf : findTimeSlot (acc.1 pair.2) pair.1.requiredHours with
  | none => exact hinv oid
  | some st =>
    simp only
    by_cases hoid : oid = pair.2
    · subst hoid
      rw [if_pos rfl, assignIntervals_append, if_pos rfl]
      have hstep := update_step_PD (hinv pair.2)
        (show (0 : Int) < pair.1.requiredHours by omega) hf
      refine (List.Perm.pairwise_iff (fun h => ivDisj_symm h) ?_).mp hstep
      exact List.Perm.append_left _ (List.perm_append_singleton _ _).symm
    · rw [if_neg hoid, assignIntervals_append,
        if_neg (fun h => hoid (Eq.symm h))]
      simpa using hinv oid

/-- The packing fold preserves the per-operator disjointness
invariant. -/
theorem pack_foldl_inv (pairs : List (Task × String))
    (acc : (String → List (Int × Int)) × List Assignment)
    (hdur : ∀ p ∈ pairs, 1 ≤ p.1.requiredHours)
    (hinv : ∀ oid, List.Pairwise ivDisj (acc.1 oid ++ assignIntervals oid acc.2)) :
    ∀ oid, List.Pairwise ivDisj
      ((pairs.foldl packStep acc).1 oid ++
        assignIntervals oid (pairs.foldl packStep acc).2) := by
  induction pairs generalizing acc with
  | nil => exact hinv
  | cons p ps ih =>
    rw [List.foldl_cons]
    exact ih _ (fun q hq => hdur q (List.mem_cons_of_mem _ hq))
      (packStep_inv (hdur p (List.mem_cons_self _ _)) hinv)

/-- Every pair the packing loop processes carries a task drawn from
the task list. -/
theorem sortedMatchedPairs_task_mem {tasks : List Task}
    {matchesList : List (String × String)} {now : Int} {p : Task × String}
    (hp : p ∈ sortedMatchedPairs tasks matchesList now) : p.1 ∈ tasks := by
  unfold sortedMatchedPairs at hp
  have hp2 := (List.mergeSort_perm (matchedPairs tasks matchesList) _).mem_iff.mp hp
  unfold matchedPairs at hp2
  obtain ⟨q, _, hq⟩ := List.mem_filterMap.mp hp2
  cases hfind : tasks.find? (fun t => t.taskId = q.1) with
  | none => rw [hfind] at hq; simp at hq
  | some t =>
    rw [hfind] at hq
    simp only [Option.map_some', Option.some.injEq] at hq
    have := List.mem_of_find?_eq_some hfind
    rw [← hq]
    exact this

/-- The initial free-slot table holds at most one interval per
operator and there are no occupied intervals yet, so the invariant
holds at the start of packing. -/
theorem initial_pack_inv (operators : List Operator) :
    ∀ oid, List.Pairwise ivDisj
      (initialSchedules operators oid ++ assignIntervals oid ([] : List Assignment)) := by
  intro oid
  unfold initialSchedules assignIntervals
  simp only [List.filter_nil, List.map_nil, List.append_nil]
  cases operators.reverse.find? (fun o => o.operatorId = oid) <;> simp

/-- Per-operator disjointness of every packing result, for any matched
list, provided every task duration is at least one hour (enforced by
the Task constructor). -/
theorem createScheduleResult_PD (operators : List Operator) (tasks : List Task)
    (matchesList : List (String × String)) (now : Int)
    (htasks : ∀ t ∈ tasks, 1 ≤ t.requiredHours) :
    ∀ oid, List.Pairwise ivDisj
      (assignIntervals oid (createScheduleResult operators tasks matchesList now).assignments) := by
  intro oid
  have hdur : ∀ p ∈ sortedMatchedPairs tasks matchesList now,
      1 ≤ p.1.requiredHours :=
    fun p hp => htasks p.1 (sortedMatchedPairs_task_mem hp)
  have hres := pack_foldl_inv (sortedMatchedPairs tasks matchesList now)
    (initialSchedules operators, []) hdur (initial_pack_inv operators) oid
  exact (List.pairwise_append.mp hres).2.1

/-- The gap scan of _find_available_slots needs two consecutive free
intervals to emit anything, so a schedule of at most one interval
yields no start hour at all; since every schedule starts as a single
interval and is only split after an assignment, the greedy phase never
finds a candidate. -/
theorem findAvailableSlots_short {schedule : List (Int × Int)} {d : Int}
    (h : schedule.length ≤ 1) : findAvailableSlots schedule d = [] := by
  match schedule, h with
  | [], _ =>
    unfold findAvailableSlots
    simp
  | [p], _ =>
    unfold findAvailableSlots
    simp

/-- With every free-slot list of length at most one, the candidate
fold of _find_best_assignment keeps its accumulator unchanged. -/
theorem findBestFold_id {sm : String → Option (List String)}
    {schedules : String → List (Int × Int)} {t : Task} {now : Int}
    (h : ∀ oid, (schedules oid).length ≤ 1) (operators : List Operator)
    (acc : Option (String × Int) × ℚ) :
    operators.foldl (findBestFold sm schedules t now) acc = acc := by
  induction operators generalizing acc with
  | nil => rfl
  | cons o os ih =>
    rw [List.foldl_cons]
    have hstep : findBestFold sm schedules t now acc o = acc := by
      unfold findBestFold
      rw [findAvailableSlots_short (h o.operatorId)]
      split <;> rfl
    rw [hstep]
    exact ih acc

/-- With every free-slot list of length at most one,
_find_best_assignment returns no candidate. -/
theorem findBestAssignment_none {operators : List Operator}
    {sm : String → Option (List String)}
    {schedules : String → List (Int × Int)} {t : Task} {now : Int}
    (h : ∀ oid, (schedules oid).length ≤ 1) :
    findBestAssignment operators sm schedules t now = none := by
  unfold findBestAssignment
  rw [findBestFold_id h operators (none, -1)]

/-- The greedy fold leaves its state untouched when every free-slot
list has at most one interval. -/
theorem greedyStep_foldl_id {operators : List Operator}
    {sm : String → Option (List String)} {now : Int} (ts : List Task)
    (acc : (String → List (Int × Int)) × List Assignment)
    (h : ∀ oid, (acc.1 oid).length ≤ 1) :
    ts.foldl (greedyStep operators sm now) acc = acc := by
  induction ts with
  | nil => rfl
  | cons t ts ih =>
    rw [List.foldl_cons]
    have hstep : greedyStep operators sm now acc t = acc := by
      unfold greedyStep
      rw [findBestAssignment_none h]
    rw [hstep]
    exact ih

/-- The initial free-slot table has at most one interval per
operator. -/
theorem initialSchedules_short (operators : List Operator) :
    ∀ oid, (initialSchedules operators oid).length ≤ 1 := by
  intro oid
  unfold initialSchedules
  cases operators.reverse.find? (fun o => o.operatorId = oid) <;> simp

/-- The greedy construction phase never assigns anything: the slot
finder scans gaps between free intervals instead of the intervals
themselves, and every schedule starts as a single interval. -/
theorem greedyAssignment_empty (operators : List Operator)
    (tasks : List Task) (now : Int) :
    (greedyAssignment operators tasks now).assignments = [] := by
  unfold greedyAssignment
  rw [greedyStep_foldl_id _ _ (initialSchedules_short operators)]

/-- On an empty assignment list every improvement attempt returns
nothing (first guard of _try_improvements). -/
theorem tryImprovements_empty {picks : ℕ → ℕ} {operators : List Operator}
    {tasks : List Task} {sm : String → Option (List String)}
    {result : ScheduleResult} (h : result.assignments = []) :
    tryImprovements picks operators tasks sm result = none := by
  unfold tryImprovements
  rw [h]
  rfl

/-- The improvement phase is the identity on a result with no
assignments. -/
theorem improveSolution_empty {picks : ℕ → ℕ → ℕ} {operators : List Operator}
    {tasks : List Task} {sm : String → Option (List String)} {now : Int}
    {iterations : ℕ} {result : ScheduleResult}
    (h : result.assignments = []) :
    improveSolution picks operators tasks sm now iterations result = result := by
  unfold improveSolution
  have hfold : ∀ (l : List ℕ) (acc : ScheduleResult × ℚ),
      acc.1.assignments = [] →
      l.foldl (improveStep picks operators tasks sm now) acc = acc := by
    intro l
    induction l with
    | nil => intro acc _; rfl
    | cons i is ih =>
      intro acc hacc
      rw [List.foldl_cons]
      have hstep : improveStep picks operators tasks sm now acc i = acc := by
        unfold improveStep
        rw [tryImprovements_empty hacc]
      rw [hstep]
      exact ih acc hacc
  rw [hfold _ _ h]

/-- The full heuristic strategy always returns an empty assignment
list. -/
theorem heuristicOptimize_empty (picks : ℕ → ℕ → ℕ) (iterations : ℕ)
    (operators : List Operator) (tasks : List Task) (now : Int) :
    (heuristicOptimize picks iterations operators tasks now).assignments = [] := by
  unfold heuristicOptimize
  rw [improveSolution_empty (greedyAssignment_empty operators tasks now)]
  exact greedyAssignment_empty operators tasks now

/-- C1: for every schedule result of either strategy and every
operator, the assignment intervals of that operator are pairwise
disjoint.  The heuristic strategy satisfies this for every input and
random stream (its greedy phase provably assigns nothing, see
findAvailableSlots_short); the deferred-acceptance strategy satisfies
it for every preference table and iteration cap whenever every task
duration is at least one hour, which the Task constructor enforces. -/
theorem c1_no_operator_overlap :
    (∀ (picks : ℕ → ℕ → ℕ) (iterations : ℕ) (operators : List Operator)
       (tasks : List Task) (now : Int) (oid : String),
      List.Pairwise ivDisj (assignIntervals oid
        (heuristicOptimize picks iterations operators tasks now).assignments)) ∧
    (∀ (tpF oppF : String → List String) (operators : List Operator)
       (tasks : List Task) (maxIterations : ℕ) (now : Int) (oid : String),
      (∀ t ∈ tasks, 1 ≤ t.requiredHours) →
      List.Pairwise ivDisj (assignIntervals oid
        (daOptimize tpF oppF operators tasks maxIterations now).assignments)) := by
  constructor
  · intro picks iterations operators tasks now oid
    rw [heuristicOptimize_empty]
    exact List.Pairwise.nil
  · intro tpF oppF operators tasks maxIterations now oid htasks
    unfold daOptimize
    exact createScheduleResult_PD operators tasks _ now htasks oid

/-- C1 witness: the deferred-acceptance branch of the theorem applied
to one operator with window 9 to 17 and one 4-hour task, preferences
naming each other. -/
theorem c1_no_operator_overlap_witness :
    (∀ t ∈ [(⟨"t1", "T", "general", 4, none, .MEDIUM, none⟩ : Task)],
      1 ≤ t.requiredHours) ∧
    List.Pairwise ivDisj (assignIntervals "op1"
      (daOptimize (fun _ => ["op1"]) (fun _ => ["t1"])
        [⟨"op1", "Alice", [], 9, 0, 17, 0⟩]
        [⟨"t1", "T", "general", 4, none, .MEDIUM, none⟩] 1000 0).assignments) :=
  ⟨by decide,
   c1_no_operator_overlap.2 (fun _ => ["op1"]) (fun _ => ["t1"])
     [⟨"op1", "Alice", [], 9, 0, 17, 0⟩]
     [⟨"t1", "T", "general", 4, none, .MEDIUM, none⟩] 1000 0 "op1" (by decide)⟩

/-- C2 (code bug): in scenario A, one operator with window 9 to 17 and
one 4-hour task with no required skill, the greedy strategy returns no
assignment at all, for every random stream, iteration budget and clock
value, instead of the claimed assignment at start hour 9.  The cause
is _find_available_slots, which scans the gaps between consecutive
free intervals rather than the free intervals themselves, so the
initial single-window schedule offers no start hour. -/
theorem c2_scenario_a_greedy_assigns_nothing (picks : ℕ → ℕ → ℕ)
    (iterations : ℕ) (now : Int) :
    (heuristicOptimize picks iterations
      [⟨"op1", "Alice", [], 9, 0, 17, 0⟩]
      [⟨"task1", "T", "general", 4, none, .MEDIUM, none⟩] now).assignments = [] :=
  heuristicOptimize_empty picks iterations _ _ now

/-- An empty error component of the duplicate-check fold means the
initial errors were empty, the scanned ids are duplicate free, and
none of them was seen before. -/
theorem duplicateTaskStep_foldl_nil (l : List Assignment)
    (errs0 seen0 : List String)
    (h : (l.foldl duplicateTaskStep (errs0, seen0)).1 = []) :
    errs0 = [] ∧ (l.map (fun a => a.taskId)).Nodup ∧
      ∀ a ∈ l, seen0.contains a.taskId = false := by
  induction l generalizing errs0 seen0 with
  | nil => exact ⟨h, List.nodup_nil, fun a ha => absurd ha (List.not_mem_nil a)⟩
  | cons a t ih =>
    rw [List.foldl_cons] at h
    unfold duplicateTaskStep at h
    by_cases hc : seen0.contains a.taskId
    · rw [if_pos hc] at h
      obtain ⟨habs, -, -⟩ := ih _ _ h
      simp at habs
    · rw [if_neg hc] at h
      obtain ⟨he, hnd, hseen⟩ := ih _ _ h
      refine ⟨he, ?_, ?_⟩
      · rw [List.map_cons, List.nodup_cons]
        refine ⟨?_, hnd⟩
        intro hmem
        obtain ⟨b, hb, hbeq⟩ := List.mem_map.mp hmem
        have := hseen b hb
        rw [hbeq] at this
        simp at this
      · intro b hb
        rcases List.mem_cons.mp hb with rfl | hb
        · exact Bool.eq_false_iff.mpr hc
        · have := hseen b hb
          simp at this
          simp
          exact this.1

/-- An empty duplicate-error list means no task id repeats. -/
theorem duplicateTaskErrors_nil {assignments : List Assignment}
    (h : duplicateTaskErrors assignments = []) :
    (assignments.map (fun a => a.taskId)).Nodup :=
  (duplicateTaskStep_foldl_nil assignments [] [] h).2.1

/-- An empty overlap-error list gives the adjacent no-overlap chain of
the sorted group. -/
theorem overlapErrors_nil {oid : String} {l : List Assignment}
    (h : overlapErrors oid l = []) :
    List.Chain' (fun a b : Assignment => a.endHour ≤ b.startHour) l := by
  have hzip : ∀ p ∈ l.zip l.tail, p.1.endHour ≤ p.2.startHour := by
    intro p hp
    by_contra hcon
    have hmem : (["Time overlap for operator " ++ oid ++ ": Task " ++
        p.1.taskId ++ " and " ++ p.2.taskId] : List String) ≠ [] := by simp
    unfold overlapErrors at h
    rw [List.flatMap_eq_nil_iff] at h
    have := h p hp
    rw [if_pos (by omega)] at this
    exact hmem this
  clear h
  induction l with
  | nil => exact List.chain'_nil
  | cons a t ih =>
    cases t with
    | nil => exact List.chain'_singleton a
    | cons b t2 =>
      rw [List.chain'_cons]
      constructor
      · exact hzip (a, b) (by simp [List.tail_cons, List.zip_cons_cons])
      · apply ih
        intro p hp
        apply hzip
        simp only [List.tail_cons, List.zip_cons_cons]
        exact List.mem_cons_of_mem _ hp

/-- An empty window-error list bounds every group member inside the
operator window. -/
theorem windowErrors_nil {oid : String} {ws we : Int} {l : List Assignment}
    (h : windowErrors oid ws we l = []) :
    ∀ a ∈ l, ws ≤ a.startHour ∧ a.endHour ≤ we := by
  intro a ha
  unfold windowErrors at h
  rw [List.flatMap_eq_nil_iff] at h
  have := h a ha
  by_contra hcon
  rw [if_pos (by omega)] at this
  simp at this

/-- The stable sort by start hour is sorted by start hour. -/
theorem sortByStart_sorted (l : List Assignment) :
    List.Pairwise (fun a b : Assignment => a.startHour ≤ b.startHour)
      (sortByStart l) := by
  have := @List.sorted_mergeSort Assignment
    (fun a b : Assignment => decide (a.startHour ≤ b.startHour))
    (fun a b c hab hbc => by
      simp only [decide_eq_true_eq] at *
      omega)
    (fun a b => by
      simp only [Bool.or_eq_true, decide_eq_true_eq]
      omega)
    l
  exact this.imp (fun h => by simpa using h)

/-- Sortedness by start together with the adjacent no-overlap chain
yields full pairwise interval disjointness. -/
theorem pairwise_disj_of_sorted_chain (l : List Assignment)
    (hsort : List.Pairwise (fun a b : Assignment => a.startHour ≤ b.startHour) l)
    (hchain : List.Chain' (fun a b : Assignment => a.endHour ≤ b.startHour) l) :
    List.Pairwise (fun a b : Assignment =>
      ivDisj (a.startHour, a.endHour) (b.startHour, b.endHour)) l := by
  induction l with
  | nil => exact List.Pairwise.nil
  | cons a t ih =>
    rw [List.pairwise_cons] at hsort ⊢
    obtain ⟨hsa, hst⟩ := hsort
    refine ⟨?_, ih hst (hchain.tail)⟩
    intro b hb
    cases t with
    | nil => exact absurd hb (List.not_mem_nil b)
    | cons c t2 =>
      have hac : a.endHour ≤ c.startHour := (List.chain'_cons.mp hchain).1
      have hcb : c.startHour ≤ b.startHour := by
        rcases List.mem_cons.mp hb with rfl | hb
        · exact le_refl _
        · exact (List.pairwise_cons.mp hst).1 b hb
      unfold ivDisj
      simp only
      omega

/-- Chained, sorted, window-bounded assignments have total duration at
most the window length measured from any lower bound of the first
start. -/
theorem sum_durations_le (l : List Assignment) (lb we : Int)
    (hchain : List.Chain' (fun a b : Assignment => a.endHour ≤ b.startHour) l)
    (hsort : List.Pairwise (fun a b : Assignment => a.startHour ≤ b.startHour) l)
    (hbnd : ∀ a ∈ l, lb ≤ a.startHour ∧ a.endHour ≤ we)
    (hne : l ≠ []) :
    (l.map (fun a => a.durationHours)).sum ≤ we - lb := by
  induction l generalizing lb with
  | nil => exact absurd rfl hne
  | cons a t ih =>
    cases t with
    | nil =>
      obtain ⟨h1, h2⟩ := hbnd a (List.mem_cons_self _ _)
      unfold Assignment.endHour at h2
      simp
      omega
    | cons b t2 =>
      have hab : a.endHour ≤ b.startHour := (List.chain'_cons.mp hchain).1
      have hrec := ih b.startHour hchain.tail
        (List.pairwise_cons.mp hsort).2
        (by
          intro x hx
          refine ⟨?_, (hbnd x (List.mem_cons_of_mem a hx)).2⟩
          rcases List.mem_cons.mp hx with rfl | hx
          · exact le_refl _
          · exact (List.pairwise_cons.mp (List.pairwise_cons.mp hsort).2).1 x hx)
        (by simp)
      obtain ⟨h1, h2⟩ := hbnd a (List.mem_cons_self _ _)
      unfold Assignment.endHour at hab h2
      rw [List.map_cons, List.sum_cons]
      omega

/-- Decomposition of an empty per-operator error list: the operator is
known and both the overlap and window checks pass. -/
theorem operatorErrors_nil {operators : List Operator} {oid : String}
    {group : List Assignment} (h : operatorErrors operators oid group = []) :
    ∃ op, operators.reverse.find? (fun o => o.operatorId = oid) = some op ∧
      overlapErrors oid (sortByStart group) = [] ∧
      windowErrors oid op.workStart op.workEnd group = [] := by
  unfold operatorErrors at h
  cases hfind : operators.reverse.find? (fun o => o.operatorId = oid) with
  | none => rw [hfind] at h; simp at h
  | some op =>
    rw [hfind] at h
    rw [List.append_eq_nil] at h
    exact ⟨op, rfl, h.1, h.2⟩

/-- Group membership puts the operator id among the deduplicated key
list, so its error block is part of the flatMap. -/
theorem validationErrors_nil_operator {operators : List Operator}
    {result : ScheduleResult} (h : validationErrors operators result = [])
    {oid : String} (hmem : oid ∈ (result.assignments.map (fun a => a.operatorId)).dedup) :
    operatorErrors operators oid
      (result.assignments.filter (fun a => a.operatorId = oid)) = [] := by
  unfold validationErrors at h
  rw [List.append_eq_nil] at h
  rw [List.flatMap_eq_nil_iff] at h
  exact h.1 oid hmem

/-- C4 counterexample: a result whose single assignment pairs a task
requiring skill X with an operator holding no skills passes the
validator with zero violations, because validate_result never reads
skill data (its input does not even contain the task records), so the
claim that every violation of invariant (c) produces a violation
message is false. -/
theorem c4_counterexample_skill_unchecked :
    validateResult [⟨"op1", "Alice", [], 9, 0, 17, 0⟩]
      ⟨"deferred_acceptance", [⟨"op1", "t1", 9, 4⟩]⟩ = (true, []) ∧
    (⟨"t1", "T", "general", 4, none, .MEDIUM, some "X"⟩ : Task).requiredSkill =
      some "X" ∧
    (⟨"op1", "Alice", [], 9, 0, 17, 0⟩ : Operator).hasSkill "X" = false ∧
    eligibleFor ⟨"t1", "T", "general", 4, none, .MEDIUM, some "X"⟩
      ⟨"op1", "Alice", [], 9, 0, 17, 0⟩ = false := by
  refine ⟨?_, rfl, by decide, by decide⟩
  simp [validateResult, validationErrors, operatorErrors, overlapErrors,
    windowErrors, duplicateTaskErrors, duplicateTaskStep, sortByStart,
    Assignment.endHour, Operator.workStart, Operator.workEnd,
    List.mergeSort_singleton]

/-- C4 amended: the validator is a total function (it never raises by
construction) and an empty violation list certifies invariants (a)
per-operator disjointness, (b) window containment with a known
operator record, (d) no duplicate task ids, and (e) the per-operator
duration sum bounded by the hour-granular window length; it does not
check the skill invariant (c) at all, as the counterexample shows. -/
theorem c4_validator_empty_certifies (operators : List Operator)
    (result : ScheduleResult)
    (h : (validateResult operators result).2 = []) :
    (∀ oid, List.Pairwise ivDisj (assignIntervals oid result.assignments)) ∧
    (∀ a ∈ result.assignments, ∃ op,
      operators.reverse.find? (fun o => o.operatorId = a.operatorId) = some op ∧
      op.workStart ≤ a.startHour ∧ a.endHour ≤ op.workEnd) ∧
    (result.assignments.map (fun a => a.taskId)).Nodup ∧
    (∀ a ∈ result.assignments, ∀ op,
      operators.reverse.find? (fun o => o.operatorId = a.operatorId) = some op →
      ((result.assignments.filter
        (fun b => b.operatorId = a.operatorId)).map
          (fun b => b.durationHours)).sum ≤ op.workEnd - op.workStart) := by
  replace h : validationErrors operators result = [] := h
  have hdup : duplicateTaskErrors result.assignments = [] := by
    unfold validationErrors at h
    exact (List.append_eq_nil.mp h).2
  have hgroup : ∀ a ∈ result.assignments,
      a ∈ result.assignments.filter (fun b => b.operatorId = a.operatorId) := by
    intro a ha
    rw [List.mem_filter]
    exact ⟨ha, by simp⟩
  have hkey : ∀ a ∈ result.assignments,
      a.operatorId ∈ (result.assignments.map (fun b => b.operatorId)).dedup := by
    intro a ha
    rw [List.mem_dedup]
    exact List.mem_map.mpr ⟨a, ha, rfl⟩
  refine ⟨?_, ?_, duplicateTaskErrors_nil hdup, ?_⟩
  · intro oid
    cases hgrp : result.assignments.filter (fun a => a.operatorId = oid) with
    | nil =>
      unfold assignIntervals
      rw [hgrp]
      exact List.Pairwise.nil
    | cons a0 t0 =>
      have ha0 : a0 ∈ result.assignments.filter (fun a => a.operatorId = oid) := by
        rw [hgrp]
        exact List.mem_cons_self _ _
      have ha0' := List.mem_filter.mp ha0
      have hmemkey : oid ∈ (result.assignments.map (fun b => b.operatorId)).dedup := by
        rw [List.mem_dedup]
        exact List.mem_map.mpr ⟨a0, ha0'.1, by simpa using ha0'.2⟩
      obtain ⟨op, -, hov, -⟩ :=
        operatorErrors_nil (validationErrors_nil_operator h hmemkey)
      have hchain := overlapErrors_nil hov
      have hsort := sortByStart_sorted
        (result.assignments.filter (fun a => a.operatorId = oid))
      have hpair := pairwise_disj_of_sorted_chain _ hsort hchain
      have hperm : (sortByStart
          (result.assignments.filter (fun a => a.operatorId = oid))).Perm
          (result.assignments.filter (fun a => a.operatorId = oid)) :=
        List.mergeSort_perm _ _
      have hpair2 := (List.Perm.pairwise_iff
        (fun hab => ivDisj_symm hab) hperm).mp hpair
      unfold assignIntervals
      rw [List.pairwise_map]
      exact hpair2
  · intro a ha
    obtain ⟨op, hfind, -, hwin⟩ :=
      operatorErrors_nil (validationErrors_nil_operator h (hkey a ha))
    exact ⟨op, hfind, (windowErrors_nil hwin a (hgroup a ha)).1,
      (windowErrors_nil hwin a (hgroup a ha)).2⟩
  · intro a ha op hfind
    obtain ⟨op2, hfind2, hov, hwin⟩ :=
      operatorErrors_nil (validationErrors_nil_operator h (hkey a ha))
    rw [hfind] at hfind2
    cases hfind2
    have hchain := overlapErrors_nil hov
    have hsort := sortByStart_sorted
      (result.assignments.filter (fun b => b.operatorId = a.operatorId))
    have hperm : (sortByStart
        (result.assignments.filter (fun b => b.operatorId = a.operatorId))).Perm
        (result.assignments.filter (fun b => b.operatorId = a.operatorId)) :=
      List.mergeSort_perm _ _
    have hne : sortByStart
        (result.assignments.filter (fun b => b.operatorId = a.operatorId)) ≠ [] := by
      intro hnil
      have := hperm.symm.mem_iff.mp (hgroup a ha)
      rw [hnil] at this
      exact absurd this (List.not_mem_nil a)
    have hbnd : ∀ x ∈ sortByStart
        (result.assignments.filter (fun b => b.operatorId = a.operatorId)),
        op.workStart ≤ x.startHour ∧ x.endHour ≤ op.workEnd := by
      intro x hx
      exact windowErrors_nil hwin x (hperm.mem_iff.mp hx)
    have hsum := sum_durations_le _ op.workStart op.workEnd hchain hsort hbnd hne
    calc ((result.assignments.filter
            (fun b => b.operatorId = a.operatorId)).map
              (fun b => b.durationHours)).sum
        = ((sortByStart (result.assignments.filter
            (fun b => b.operatorId = a.operatorId))).map
              (fun b => b.durationHours)).sum :=
          (List.Perm.sum_eq (hperm.map (fun b => b.durationHours))).symm
      _ ≤ op.workEnd - op.workStart := hsum

/-- C4 witness: the amended theorem applied to a one-assignment result
that validates cleanly. -/
theorem c4_validator_empty_certifies_witness :
    (validateResult [⟨"op1", "Alice", [], 9, 0, 17, 0⟩]
      ⟨"heuristic", [⟨"op1", "t1", 9, 4⟩]⟩).2 = [] ∧
    (([⟨"op1", "t1", 9, 4⟩] : List Assignment).map (fun a => a.taskId)).Nodup :=
  have hempty : (validateResult [⟨"op1", "Alice", [], 9, 0, 17, 0⟩]
      ⟨"heuristic", [⟨"op1", "t1", 9, 4⟩]⟩).2 = [] := by
    simp [validateResult, validationErrors, operatorErrors, overlapErrors,
      windowErrors, duplicateTaskErrors, duplicateTaskStep, sortByStart,
      Assignment.endHour, Operator.workStart, Operator.workEnd,
      List.mergeSort_singleton]
  ⟨hempty,
   (c4_validator_empty_certifies [⟨"op1", "Alice", [], 9, 0, 17, 0⟩]
     ⟨"heuristic", [⟨"op1", "t1", 9, 4⟩]⟩ hempty).2.2.1⟩

/-- Membership in a dict update: an entry is the written one or an
original entry. -/
theorem mem_updateAssoc {l : List (String × String)} {k v : String}
    {x : String × String} (hx : x ∈ updateAssoc l k v) :
    x = (k, v) ∨ x ∈ l := by
  unfold updateAssoc at hx
  split at hx
  · obtain ⟨p, hp, hpx⟩ := List.mem_map.mp hx
    by_cases hk : p.1 = k
    · rw [if_pos hk] at hpx
      exact Or.inl hpx.symm
    · rw [if_neg hk] at hpx
      exact Or.inr (hpx ▸ hp)
  · rcases List.mem_append.mp hx with h | h
    · exact Or.inr h
    · rw [List.mem_singleton] at h
      exact Or.inl h

/-- Dict update preserves duplicate-freedom of the key list. -/
theorem updateAssoc_keys_nodup {l : List (String × String)} {k v : String}
    (h : (l.map (·.1)).Nodup) : ((updateAssoc l k v).map (·.1)).Nodup := by
  unfold updateAssoc
  split
  · have hkeys : (l.map (fun p => if p.1 = k then (k, v) else p)).map (·.1) =
        l.map (·.1) := by
      rw [List.map_map]
      apply List.map_congr_left
      intro p hp
      by_cases hk : p.1 = k
      · simp [hk]
      · simp [hk]
    rw [hkeys]
    exact h
  · rename_i hfind
    rw [List.map_append]
    have hk : k ∉ l.map (·.1) := by
      intro hmem
      obtain ⟨p, hp, hpk⟩ := List.mem_map.mp hmem
      have hnone : l.find? (fun p => decide (p.1 = k)) = none := by
        cases hf2 : l.find? (fun p => decide (p.1 = k)) with
        | none => rfl
        | some q => rw [hf2] at hfind; simp at hfind
      rw [List.find?_eq_none] at hnone
      exact hnone p hp (by simp [hpk])
    simp only [List.map_cons, List.map_nil]
    exact List.Nodup.append h (List.nodup_singleton k)
      (by
        intro a ha hb
        rw [List.mem_singleton] at hb
        exact hk (hb ▸ ha))

/-- On a key-duplicate-free association list, two entries with the
same key agree. -/
theorem keyNodup_entry_eq {l : List (String × String)}
    (h : (l.map (·.1)).Nodup) {k a b : String}
    (ha : (k, a) ∈ l) (hb : (k, b) ∈ l) : a = b := by
  induction l with
  | nil => exact absurd ha (List.not_mem_nil _)
  | cons p t ih =>
    rw [List.map_cons, List.nodup_cons] at h
    rcases List.mem_cons.mp ha with hah | hat
    · rcases List.mem_cons.mp hb with hbh | hbt
      · rw [← hah] at hbh
        exact (Prod.mk.injEq _ _ _ _ ▸ hbh).2.symm
      · exfalso
        apply h.1
        rw [← hah]
        exact List.mem_map.mpr ⟨(k, b), hbt, rfl⟩
    · rcases List.mem_cons.mp hb with hbh | hbt
      · exfalso
        apply h.1
        rw [← hbh]
        exact List.mem_map.mpr ⟨(k, a), hat, rfl⟩
      · exact ih h.2 hat hbt

/-- Proposal processing never touches the matches dict. -/
theorem processTask_matchesMap (tpF oppF : String → List String)
    (r : DARound) (t : String) :
    (processTask tpF oppF r t).st.matchesMap = r.st.matchesMap := by
  unfold processTask
  split
  · rfl
  · split
    · rfl
    · split
      · split
        · rfl
        · rfl
      · rfl

/-- The whole proposal phase of a round keeps the matches dict. -/
theorem foldl_processTask_matchesMap (tpF oppF : String → List String)
    (ts : List String) (r : DARound) :
    (ts.foldl (processTask tpF oppF) r).st.matchesMap = r.st.matchesMap := by
  induction ts generalizing r with
  | nil => rfl
  | cons t ts ih =>
    rw [List.foldl_cons, ih, processTask_matchesMap]

/-- Merging one accepted proposal preserves key-duplicate-freedom of
the matches dict. -/
theorem mergeProposal_keys_nodup {st : DAState} {p : String × String}
    (h : (st.matchesMap.map (·.1)).Nodup) :
    ((mergeProposal st p).matchesMap.map (·.1)).Nodup := by
  unfold mergeProposal
  split
  · split
    · exact updateAssoc_keys_nodup h
    · exact updateAssoc_keys_nodup h
  · exact updateAssoc_keys_nodup h

/-- The merge phase preserves key-duplicate-freedom. -/
theorem foldl_mergeProposal_keys_nodup (cps : List (String × String))
    (st : DAState) (h : (st.matchesMap.map (·.1)).Nodup) :
    (((cps.foldl mergeProposal st).matchesMap).map (·.1)).Nodup := by
  induction cps generalizing st with
  | nil => exact h
  | cons c cs ih =>
    rw [List.foldl_cons]
    exact ih _ (mergeProposal_keys_nodup h)

/-- Every round preserves key-duplicate-freedom of the matches dict. -/
theorem daRound_keys_nodup (tpF oppF : String → List String) (st : DAState)
    (h : (st.matchesMap.map (·.1)).Nodup) :
    ((daRound tpF oppF st).matchesMap.map (·.1)).Nodup := by
  unfold daRound
  apply foldl_mergeProposal_keys_nodup
  rw [foldl_processTask_matchesMap]
  exact h

/-- The matches dict of the capped loop is key-duplicate-free: it is a
Python dict keyed by operator id. -/
theorem daLoop_keys_nodup (tpF oppF : String → List String) (fuel : ℕ)
    (st : DAState) (h : (st.matchesMap.map (·.1)).Nodup) :
    ((daLoop tpF oppF fuel st).matchesMap.map (·.1)).Nodup := by
  induction fuel generalizing st with
  | zero => exact h
  | succ n ih =>
    unfold daLoop
    split
    · exact h
    · exact ih _ (daRound_keys_nodup tpF oppF st h)

/-- Every entry of the reversed matches dict comes from a matches
entry with the components swapped. -/
theorem mem_reverseMatches {m : List (String × String)} {x : String × String}
    (hx : x ∈ reverseMatches m) : (x.2, x.1) ∈ m := by
  have hgen : ∀ (l : List (String × String)) (acc : List (String × String)),
      x ∈ l.foldl (fun acc p => updateAssoc acc p.2 p.1) acc →
      (x.2, x.1) ∈ l ∨ x ∈ acc := by
    intro l
    induction l with
    | nil => exact fun acc h => Or.inr h
    | cons p t ih =>
      intro acc h
      rw [List.foldl_cons] at h
      rcases ih _ h with h2 | h2
      · exact Or.inl (List.mem_cons_of_mem _ h2)
      · rcases mem_updateAssoc h2 with rfl | h3
        · exact Or.inl (List.mem_cons_self _ _)
        · exact Or.inr h3
  rcases hgen m [] hx with h | h
  · exact h
  · exact absurd h (List.not_mem_nil x)

/-- The reversed matches dict is itself key-duplicate-free. -/
theorem reverseMatches_keys_nodup (m : List (String × String)) :
    ((reverseMatches m).map (·.1)).Nodup := by
  have hgen : ∀ (l : List (String × String)) (acc : List (String × String)),
      (acc.map (·.1)).Nodup →
      ((l.foldl (fun acc p => updateAssoc acc p.2 p.1) acc).map (·.1)).Nodup := by
    intro l
    induction l with
    | nil => exact fun acc h => h
    | cons p t ih =>
      intro acc h
      rw [List.foldl_cons]
      exact ih _ (updateAssoc_keys_nodup h)
  exact hgen m [] List.nodup_nil

/-- With a key-duplicate-free matches dict the reversed dict has
pairwise distinct operators: the emitted task-to-operator map is
injective. -/
theorem reverseMatches_snd_pairwise {m : List (String × String)}
    (h : (m.map (·.1)).Nodup) :
    List.Pairwise (fun x y : String × String => x.2 ≠ y.2)
      (reverseMatches m) := by
  have hkeys : List.Pairwise (fun a b : String => a ≠ b)
      ((reverseMatches m).map (·.1)) := reverseMatches_keys_nodup m
  have hpw := List.pairwise_map.mp hkeys
  refine hpw.imp_of_mem ?_
  intro x y hxm hym hne heq
  apply hne
  exact keyNodup_entry_eq h (heq ▸ mem_reverseMatches hxm) (mem_reverseMatches hym)

/-- A found task carries the searched id. -/
theorem find_task_id {tasks : List Task} {tid : String} {t : Task}
    (h : tasks.find? (fun x => x.taskId = tid) = some t) : t.taskId = tid := by
  have := List.find?_some h
  simpa using this

/-- Distinct operators in the reversed dict give distinct operators
among the resolved matched pairs. -/
theorem matchedPairs_snd_pairwise {tasks : List Task}
    {rev : List (String × String)}
    (h : List.Pairwise (fun x y : String × String => x.2 ≠ y.2) rev) :
    List.Pairwise (fun p q : Task × String => p.2 ≠ q.2)
      (matchedPairs tasks rev) := by
  unfold matchedPairs
  rw [List.pairwise_filterMap]
  refine h.imp ?_
  intro x y hxy b hb c hc
  cases hfx : tasks.find? (fun t => t.taskId = x.1) with
  | none => rw [hfx] at hb; simp at hb
  | some tx =>
    rw [hfx] at hb
    cases hfy : tasks.find? (fun t => t.taskId = y.1) with
    | none => rw [hfy] at hc; simp at hc
    | some ty =>
      rw [hfy] at hc
      simp only [Option.mem_def, Option.map_some', Option.some.injEq] at hb hc
      rw [← hb, ← hc]
      exact hxy

/-- Distinct task ids in the reversed dict give distinct task ids
among the resolved matched pairs. -/
theorem matchedPairs_tid_pairwise {tasks : List Task}
    {rev : List (String × String)}
    (h : List.Pairwise (fun x y : String × String => x.1 ≠ y.1) rev) :
    List.Pairwise (fun p q : Task × String => p.1.taskId ≠ q.1.taskId)
      (matchedPairs tasks rev) := by
  unfold matchedPairs
  rw [List.pairwise_filterMap]
  refine h.imp ?_
  intro x y hxy b hb c hc
  cases hfx : tasks.find? (fun t => t.taskId = x.1) with
  | none => rw [hfx] at hb; simp at hb
  | some tx =>
    rw [hfx] at hb
    cases hfy : tasks.find? (fun t => t.taskId = y.1) with
    | none => rw [hfy] at hc; simp at hc
    | some ty =>
      rw [hfy] at hc
      simp only [Option.mem_def, Option.map_some', Option.some.injEq] at hb hc
      rw [← hb, ← hc]
      simp only
      rw [find_task_id hfx, find_task_id hfy]
      exact hxy

/-- In a list with pairwise distinct operators, at most one entry
matches any given operator id. -/
theorem filter_snd_length_le_one {pairs : List (Task × String)}
    (h : List.Pairwise (fun p q : Task × String => p.2 ≠ q.2) pairs)
    (oid : String) :
    (pairs.filter (fun p => p.2 = oid)).length ≤ 1 := by
  induction pairs with
  | nil => simp
  | cons p t ih =>
    rw [List.pairwise_cons] at h
    rw [List.filter_cons]
    split
    · rename_i hp
      simp only [decide_eq_true_eq] at hp
      have hrest : t.filter (fun q => q.2 = oid) = [] := by
        rw [List.filter_eq_nil_iff]
        intro q hq
        simp only [decide_eq_true_eq]
        intro hq2
        exact h.1 q hq (by rw [hp, hq2])
      simp [hrest]
    · exact le_trans (ih h.2) (le_refl 1)

/-- One packing step adds at most one assignment, and only for the
operator of its pair. -/
theorem packStep_filter_length (acc : (String → List (Int × Int)) × List Assignment)
    (pair : Task × String) (oid : String) :
    ((packStep acc pair).2.filter (fun a => a.operatorId = oid)).length ≤
      (acc.2.filter (fun a => a.operatorId = oid)).length +
        (if pair.2 = oid then 1 else 0) := by
  unfold packStep
  cases findTimeSlot (acc.1 pair.2) pair.1.requiredHours with
  | none =>
    simp only
    omega
  | some st =>
    simp only
    rw [List.filter_append, List.length_append]
    by_cases hp : pair.2 = oid <;> simp [hp]

/-- The packing fold produces, per operator, at most the number of
matched pairs naming that operator beyond what the accumulator already
holds. -/
theorem pack_foldl_filter_length (pairs : List (Task × String))
    (acc : (String → List (Int × Int)) × List Assignment) (oid : String) :
    (((pairs.foldl packStep acc).2).filter (fun a => a.operatorId = oid)).length ≤
      (acc.2.filter (fun a => a.operatorId = oid)).length +
        (pairs.filter (fun p => p.2 = oid)).length := by
  induction pairs generalizing acc with
  | nil => simp
  | cons p t ih =>
    rw [List.foldl_cons, List.filter_cons]
    have h1 := ih (packStep acc p)
    have h2 := packStep_filter_length acc p oid
    split
    · rename_i hp
      simp only [decide_eq_true_eq] at hp
      rw [if_pos hp] at h2
      simp only [List.length_cons]
      omega
    · rename_i hp
      simp only [decide_eq_true_eq] at hp
      rw [if_neg hp] at h2
      omega

/-- A packing step leaves the schedules of all other operators
untouched. -/
theorem packStep_sched_other {acc : (String → List (Int × Int)) × List Assignment}
    {pair : Task × String} {x : String} (hx : x ≠ pair.2) :
    (packStep acc pair).1 x = acc.1 x := by
  unfold packStep
  cases findTimeSlot (acc.1 pair.2) pair.1.requiredHours with
  | none => rfl
  | some st => simp only; rw [if_neg hx]

/-- A pair with no fitting slot leaves the packing state unchanged. -/
theorem packStep_none {acc : (String → List (Int × Int)) × List Assignment}
    {pair : Task × String}
    (hf : findTimeSlot (acc.1 pair.2) pair.1.requiredHours = none) :
    packStep acc pair = acc := by
  unfold packStep
  rw [hf]

/-- A pair with a fitting slot appends exactly its assignment. -/
theorem packStep_some_snd {acc : (String → List (Int × Int)) × List Assignment}
    {pair : Task × String} {st : Int}
    (hf : findTimeSlot (acc.1 pair.2) pair.1.requiredHours = some st) :
    (packStep acc pair).2 =
      acc.2 ++ [⟨pair.2, pair.1.taskId, st, pair.1.requiredHours⟩] := by
  unfold packStep
  rw [hf]

/-- Every assignment the packing fold adds beyond the accumulator
carries the task id and operator id of one of its pairs. -/
theorem pack_foldl_extras (pairs : List (Task × String))
    (acc : (String → List (Int × Int)) × List Assignment) :
    ∃ extra, (pairs.foldl packStep acc).2 = acc.2 ++ extra ∧
      ∀ a ∈ extra, ∃ q ∈ pairs, a.taskId = q.1.taskId ∧ a.operatorId = q.2 := by
  induction pairs generalizing acc with
  | nil => exact ⟨[], by simp, by simp⟩
  | cons p t ih =>
    rw [List.foldl_cons]
    obtain ⟨extra, heq, hex⟩ := ih (packStep acc p)
    cases hf : findTimeSlot (acc.1 p.2) p.1.requiredHours with
    | none =>
      rw [packStep_none hf] at heq ⊢
      exact ⟨extra, heq, fun a ha =>
        (hex a ha).elim (fun q hq => ⟨q, List.mem_cons_of_mem _ hq.1, hq.2⟩)⟩
    | some st =>
      rw [packStep_some_snd hf] at heq
      refine ⟨⟨p.2, p.1.taskId, st, p.1.requiredHours⟩ :: extra, ?_, ?_⟩
      · rw [heq, List.append_assoc, List.singleton_append]
      · intro a ha
        rcases List.mem_cons.mp ha with rfl | ha
        · exact ⟨p, List.mem_cons_self _ _, rfl, rfl⟩
        · obtain ⟨q, hq1, hq2⟩ := hex a ha
          exact ⟨q, List.mem_cons_of_mem _ hq1, hq2⟩

/-- The priority sort of the packing phase is a permutation of the
matched pairs. -/
theorem sortedMatchedPairs_perm (tasks : List Task)
    (matchesList : List (String × String)) (now : Int) :
    (sortedMatchedPairs tasks matchesList now).Perm
      (matchedPairs tasks matchesList) := by
  unfold sortedMatchedPairs
  exact List.mergeSort_perm _ _

/-- With pairwise distinct operators and task ids among the matched
pairs, each pair is placed exactly when its task fits the initial
free window of its operator: a match is dropped during packing exactly
when no first-fit slot exists in the untouched schedule. -/
theorem pack_foldl_drop (pairs : List (Task × String))
    (operators : List Operator)
    (acc : (String → List (Int × Int)) × List Assignment)
    (hops : List.Pairwise (fun p q : Task × String => p.2 ≠ q.2) pairs)
    (htids : List.Pairwise (fun p q : Task × String =>
      p.1.taskId ≠ q.1.taskId) pairs)
    (hsched : ∀ q ∈ pairs, acc.1 q.2 = initialSchedules operators q.2)
    (hfresh : ∀ q ∈ pairs, ∀ a ∈ acc.2, a.taskId ≠ q.1.taskId) :
    ∀ q ∈ pairs,
      ((∃ a ∈ (pairs.foldl packStep acc).2, a.taskId = q.1.taskId) ↔
        (findTimeSlot (initialSchedules operators q.2)
          q.1.requiredHours).isSome) := by
  induction pairs generalizing acc with
  | nil => intro q hq; exact absurd hq (List.not_mem_nil q)
  | cons p t ih =>
    intro q hq
    rw [List.foldl_cons]
    have hschedp := hsched p (List.mem_cons_self _ _)
    rcases List.mem_cons.mp hq with rfl | hq
    · cases hslot : findTimeSlot (acc.1 q.2) q.1.requiredHours with
      | some st =>
        constructor
        · intro _
          rw [hschedp] at hslot
          rw [hslot]
          rfl
        · intro _
          obtain ⟨extra, heq, -⟩ := pack_foldl_extras t (packStep acc q)
          refine ⟨⟨q.2, q.1.taskId, st, q.1.requiredHours⟩, ?_, rfl⟩
          rw [heq, packStep_some_snd hslot]
          exact List.mem_append_left _ (List.mem_append_right _
            (List.mem_singleton.mpr rfl))
      | none =>
        rw [packStep_none hslot]
        constructor
        · intro ⟨a, ha, haid⟩
          exfalso
          obtain ⟨extra, heq, hex⟩ := pack_foldl_extras t acc
          rw [heq] at ha
          rcases List.mem_append.mp ha with ha | ha
          · exact hfresh q (List.mem_cons_self _ _) a ha haid
          · obtain ⟨r, hr, hrid, -⟩ := hex a ha
            exact (List.pairwise_cons.mp htids).1 r hr (haid.symm.trans hrid)
        · intro hsome
          rw [hschedp] at hslot
          rw [hslot] at hsome
          simp at hsome
    · have hopsp := (List.pairwise_cons.mp hops).1
      have htidsp := (List.pairwise_cons.mp htids).1
      apply ih _ (List.pairwise_cons.mp hops).2 (List.pairwise_cons.mp htids).2
      · intro r hr
        rw [packStep_sched_other (fun h => hopsp r hr h.symm)]
        exact hsched r (List.mem_cons_of_mem _ hr)
      · intro r hr a ha
        cases hslot : findTimeSlot (acc.1 p.2) p.1.requiredHours with
        | none =>
          rw [packStep_none hslot] at ha
          exact hfresh r (List.mem_cons_of_mem _ hr) a ha
        | some st =>
          rw [packStep_some_snd hslot] at ha
          rcases List.mem_append.mp ha with ha | ha
          · exact hfresh r (List.mem_cons_of_mem _ hr) a ha
          · rw [List.mem_singleton] at ha
            subst ha
            exact htidsp r hr
      · exact hq

/-- On the initial schedule of a known operator, the first-fit search
fails exactly when the duration exceeds the hour window length. -/
theorem findTimeSlot_initial {operators : List Operator} {op : Operator}
    {oid : String} {d : Int}
    (hop : operators.reverse.find? (fun o => o.operatorId = oid) = some op) :
    (findTimeSlot (initialSchedules operators oid) d = none ↔
      op.workEnd - op.workStart < d) := by
  unfold initialSchedules
  rw [hop]
  unfold findTimeSlot
  rw [List.find?_cons]
  by_cases hfit : op.workEnd - op.workStart ≥ d
  · rw [decide_eq_true
      (show (op.workStart, op.workEnd).2 - (op.workStart, op.workEnd).1 ≥ d from
        hfit)]
    simp
    omega
  · rw [decide_eq_false
      (show ¬((op.workStart, op.workEnd).2 - (op.workStart, op.workEnd).1 ≥ d) from
        hfit)]
    simp [List.find?_nil]
    omega

/-- C10: (i) the task-to-operator map the deferred-acceptance loop
emits is injective: entries naming the same operator carry the same
task; (ii) every schedule result of the deferred-acceptance strategy
holds at most one assignment per operator; (iii) an emitted match is
dropped during packing exactly when the required hours of its task
exceed the hour window length of its matched operator. -/
theorem c10_da_injective_and_drop :
    (∀ (tpF oppF : String → List String) (taskIds : List String)
       (fuel : ℕ) (p q : String × String),
      p ∈ deferredAcceptance tpF oppF taskIds fuel →
      q ∈ deferredAcceptance tpF oppF taskIds fuel →
      p.2 = q.2 → p.1 = q.1) ∧
    (∀ (tpF oppF : String → List String) (operators : List Operator)
       (tasks : List Task) (fuel : ℕ) (now : Int) (oid : String),
      ((daOptimize tpF oppF operators tasks fuel now).assignments.filter
        (fun a => a.operatorId = oid)).length ≤ 1) ∧
    (∀ (tpF oppF : String → List String) (operators : List Operator)
       (tasks : List Task) (fuel : ℕ) (now : Int) (tid oid : String)
       (t : Task) (op : Operator),
      (tid, oid) ∈ deferredAcceptance tpF oppF
        ((tasks.map (fun x => x.taskId)).dedup) fuel →
      tasks.find? (fun x => x.taskId = tid) = some t →
      operators.reverse.find? (fun o => o.operatorId = oid) = some op →
      ((¬ ∃ a ∈ (daOptimize tpF oppF operators tasks fuel now).assignments,
          a.taskId = tid) ↔
        op.workEnd - op.workStart < t.requiredHours)) := by
  have hkeys : ∀ (tpF oppF : String → List String) (taskIds : List String)
      (fuel : ℕ),
      (((daLoop tpF oppF fuel (initialDAState taskIds)).matchesMap).map
        (·.1)).Nodup := by
    intro tpF oppF taskIds fuel
    exact daLoop_keys_nodup tpF oppF fuel _ List.nodup_nil
  have hsndpw : ∀ (tpF oppF : String → List String) (taskIds : List String)
      (fuel : ℕ),
      List.Pairwise (fun x y : String × String => x.2 ≠ y.2)
        (deferredAcceptance tpF oppF taskIds fuel) := by
    intro tpF oppF taskIds fuel
    exact reverseMatches_snd_pairwise (hkeys tpF oppF taskIds fuel)
  have hfstpw : ∀ (tpF oppF : String → List String) (taskIds : List String)
      (fuel : ℕ),
      List.Pairwise (fun x y : String × String => x.1 ≠ y.1)
        (deferredAcceptance tpF oppF taskIds fuel) := by
    intro tpF oppF taskIds fuel
    have := reverseMatches_keys_nodup
      (daLoop tpF oppF fuel (initialDAState taskIds)).matchesMap
    exact List.pairwise_map.mp this
  have hsortsnd : ∀ (tpF oppF : String → List String) (operators : List Operator)
      (tasks : List Task) (fuel : ℕ) (now : Int),
      List.Pairwise (fun p q : Task × String => p.2 ≠ q.2)
        (sortedMatchedPairs tasks
          (deferredAcceptance tpF oppF ((tasks.map (fun x => x.taskId)).dedup)
            fuel) now) := by
    intro tpF oppF operators tasks fuel now
    exact (List.Perm.pairwise_iff (fun h => Ne.symm h)
      (sortedMatchedPairs_perm tasks _ now)).mpr
      (matchedPairs_snd_pairwise (hsndpw tpF oppF _ fuel))
  refine ⟨?_, ?_, ?_⟩
  · intro tpF oppF taskIds fuel p q hp hq heq
    by_cases hpq : p = q
    · rw [hpq]
    · exact absurd heq
        (List.Pairwise.forall (fun x y h => Ne.symm h)
          (hsndpw tpF oppF taskIds fuel) hp hq hpq)
  · intro tpF oppF operators tasks fuel now oid
    unfold daOptimize createScheduleResult
    simp only
    have h1 := pack_foldl_filter_length
      (sortedMatchedPairs tasks
        (deferredAcceptance tpF oppF ((tasks.map (fun x => x.taskId)).dedup)
          fuel) now)
      (initialSchedules operators, []) oid
    have h2 := filter_snd_length_le_one
      (hsortsnd tpF oppF operators tasks fuel now) oid
    simp only [List.filter_nil, List.length_nil, Nat.zero_add] at h1
    omega
  · intro tpF oppF operators tasks fuel now tid oid t op hmem hfindt hfindo
    have hpairmem : (t, oid) ∈ sortedMatchedPairs tasks
        (deferredAcceptance tpF oppF ((tasks.map (fun x => x.taskId)).dedup)
          fuel) now := by
      unfold sortedMatchedPairs
      rw [(List.mergeSort_perm _ _).mem_iff]
      unfold matchedPairs
      rw [List.mem_filterMap]
      exact ⟨(tid, oid), hmem, by rw [hfindt]; rfl⟩
    have hdrop := pack_foldl_drop
      (sortedMatchedPairs tasks
        (deferredAcceptance tpF oppF ((tasks.map (fun x => x.taskId)).dedup)
          fuel) now)
      operators (initialSchedules operators, [])
      (hsortsnd tpF oppF operators tasks fuel now)
      ((List.Perm.pairwise_iff (fun h => Ne.symm h)
          (sortedMatchedPairs_perm tasks _ now)).mpr
        (matchedPairs_tid_pairwise (hfstpw tpF oppF _ fuel)))
      (fun q _ => rfl)
      (fun q _ a ha => absurd ha (List.not_mem_nil a))
      (t, oid) hpairmem
    unfold daOptimize createScheduleResult
    simp only
    rw [find_task_id hfindt] at hdrop
    constructor
    · intro hno
      have hnotsome : ¬ (findTimeSlot (initialSchedules operators oid)
          t.requiredHours).isSome = true := fun hs => hno (hdrop.mpr hs)
      have hnone : findTimeSlot (initialSchedules operators oid)
          t.requiredHours = none := by
        cases hcase : findTimeSlot (initialSchedules operators oid)
            t.requiredHours with
        | none => rfl
        | some s => rw [hcase] at hnotsome; simp at hnotsome
      exact (findTimeSlot_initial hfindo).mp hnone
    · intro hbig hex
      have hsome := hdrop.mp hex
      have hnone := (findTimeSlot_initial hfindo).mpr hbig
      rw [hnone] at hsome
      simp at hsome

/-- C10 witness: the theorem applied to a single matched pair that
fits (both directions of the drop condition discharged at a concrete
instance). -/
theorem c10_da_injective_and_drop_witness :
    ("t1", "op1") ∈ deferredAcceptance (fun _ => ["op1"]) (fun _ => ["t1"])
      (([⟨"t1", "T", "general", 4, none, .MEDIUM, none⟩] : List Task).map
        (fun x => x.taskId)).dedup 1000 ∧
    ((¬ ∃ a ∈ (daOptimize (fun _ => ["op1"]) (fun _ => ["t1"])
        [⟨"op1", "Alice", [], 9, 0, 17, 0⟩]
        [⟨"t1", "T", "general", 4, none, .MEDIUM, none⟩] 1000 0).assignments,
        a.taskId = "t1") ↔
      (⟨"op1", "Alice", [], 9, 0, 17, 0⟩ : Operator).workEnd -
        (⟨"op1", "Alice", [], 9, 0, 17, 0⟩ : Operator).workStart <
        (⟨"t1", "T", "general", 4, none, .MEDIUM, none⟩ : Task).requiredHours) :=
  ⟨by decide,
   c10_da_injective_and_drop.2.2 (fun _ => ["op1"]) (fun _ => ["t1"])
     [⟨"op1", "Alice", [], 9, 0, 17, 0⟩]
     [⟨"t1", "T", "general", 4, none, .MEDIUM, none⟩] 1000 0 "t1" "op1"
     ⟨"t1", "T", "general", 4, none, .MEDIUM, none⟩
     ⟨"op1", "Alice", [], 9, 0, 17, 0⟩ (by decide) (by decide) (by decide)⟩

/-- C8: scenario D, two tasks and two operators where every task is
eligible for every operator and the preference lists are arbitrary
permutations (covering every outcome of the seeded tie-break jitter of
fully symmetric scores): the matching loop reaches an empty free set
within 4 = number of tasks plus number of operators rounds, both tasks
are matched, their operators differ, and running with the full
default iteration cap of 1000 changes nothing. -/
theorem c8_symmetric_two_by_two (tp1 tp2 opp1 opp2 : List String)
    (h1 : tp1 = ["o1", "o2"] ∨ tp1 = ["o2", "o1"])
    (h2 : tp2 = ["o1", "o2"] ∨ tp2 = ["o2", "o1"])
    (h3 : opp1 = ["t1", "t2"] ∨ opp1 = ["t2", "t1"])
    (h4 : opp2 = ["t1", "t2"] ∨ opp2 = ["t2", "t1"]) :
    (daLoop (fun t => if t = "t1" then tp1 else if t = "t2" then tp2 else [])
        (fun o => if o = "o1" then opp1 else if o = "o2" then opp2 else [])
        4 (initialDAState ["t1", "t2"])).free = [] ∧
    (lookupAssoc (deferredAcceptance
        (fun t => if t = "t1" then tp1 else if t = "t2" then tp2 else [])
        (fun o => if o = "o1" then opp1 else if o = "o2" then opp2 else [])
        ["t1", "t2"] 4) "t1").isSome = true ∧
    (lookupAssoc (deferredAcceptance
        (fun t => if t = "t1" then tp1 else if t = "t2" then tp2 else [])
        (fun o => if o = "o1" then opp1 else if o = "o2" then opp2 else [])
        ["t1", "t2"] 4) "t2").isSome = true ∧
    lookupAssoc (deferredAcceptance
        (fun t => if t = "t1" then tp1 else if t = "t2" then tp2 else [])
        (fun o => if o = "o1" then opp1 else if o = "o2" then opp2 else [])
        ["t1", "t2"] 4) "t1" ≠
      lookupAssoc (deferredAcceptance
        (fun t => if t = "t1" then tp1 else if t = "t2" then tp2 else [])
        (fun o => if o = "o1" then opp1 else if o = "o2" then opp2 else [])
        ["t1", "t2"] 4) "t2" ∧
    deferredAcceptance
        (fun t => if t = "t1" then tp1 else if t = "t2" then tp2 else [])
        (fun o => if o = "o1" then opp1 else if o = "o2" then opp2 else [])
        ["t1", "t2"] 1000 =
      deferredAcceptance
        (fun t => if t = "t1" then tp1 else if t = "t2" then tp2 else [])
        (fun o => if o = "o1" then opp1 else if o = "o2" then opp2 else [])
        ["t1", "t2"] 4 := by
  rcases h1 with rfl | rfl <;> rcases h2 with rfl | rfl <;>
    rcases h3 with rfl | rfl <;> rcases h4 with rfl | rfl <;> decide

/-- C8 witness: the theorem at one concrete permutation choice. -/
theorem c8_symmetric_two_by_two_witness :
    (daLoop (fun t => if t = "t1" then ["o1", "o2"]
        else if t = "t2" then ["o1", "o2"] else [])
      (fun o => if o = "o1" then ["t1", "t2"]
        else if o = "o2" then ["t1", "t2"] else [])
      4 (initialDAState ["t1", "t2"])).free = [] ∧
    (lookupAssoc (deferredAcceptance
        (fun t => if t = "t1" then ["o1", "o2"]
          else if t = "t2" then ["o1", "o2"] else [])
        (fun o => if o = "o1" then ["t1", "t2"]
          else if o = "o2" then ["t1", "t2"] else [])
        ["t1", "t2"] 4) "t1").isSome = true ∧
    (lookupAssoc (deferredAcceptance
        (fun t => if t = "t1" then ["o1", "o2"]
          else if t = "t2" then ["o1", "o2"] else [])
        (fun o => if o = "o1" then ["t1", "t2"]
          else if o = "o2" then ["t1", "t2"] else [])
        ["t1", "t2"] 4) "t2").isSome = true ∧
    lookupAssoc (deferredAcceptance
        (fun t => if t = "t1" then ["o1", "o2"]
          else if t = "t2" then ["o1", "o2"] else [])
        (fun o => if o = "o1" then ["t1", "t2"]
          else if o = "o2" then ["t1", "t2"] else [])
        ["t1", "t2"] 4) "t1" ≠
      lookupAssoc (deferredAcceptance
        (fun t => if t = "t1" then ["o1", "o2"]
          else if t = "t2" then ["o1", "o2"] else [])
        (fun o => if o = "o1" then ["t1", "t2"]
          else if o = "o2" then ["t1", "t2"] else [])
        ["t1", "t2"] 4) "t2" ∧
    deferredAcceptance
        (fun t => if t = "t1" then ["o1", "o2"]
          else if t = "t2" then ["o1", "o2"] else [])
        (fun o => if o = "o1" then ["t1", "t2"]
          else if o = "o2" then ["t1", "t2"] else [])
        ["t1", "t2"] 1000 =
      deferredAcceptance
        (fun t => if t = "t1" then ["o1", "o2"]
          else if t = "t2" then ["o1", "o2"] else [])
        (fun o => if o = "o1" then ["t1", "t2"]
          else if o = "o2" then ["t1", "t2"] else [])
        ["t1", "t2"] 4 :=
  c8_symmetric_two_by_two ["o1", "o2"] ["o1", "o2"] ["t1", "t2"] ["t1", "t2"]
    (Or.inl rfl) (Or.inl rfl) (Or.inl rfl) (Or.inl rfl)

/-- Writing a key makes it readable with the written value. -/
theorem lookupAssoc_updateAssoc_self (l : List (String × String))
    (k v : String) : lookupAssoc (updateAssoc l k v) k = some v := by
  unfold updateAssoc
  split
  · rename_i hs
    unfold lookupAssoc
    rw [Option.isSome_iff_exists] at hs
    obtain ⟨p, hp⟩ := hs
    induction l with
    | nil => simp at hp
    | cons q t ih =>
      rw [List.find?_cons] at hp
      rw [List.map_cons, List.find?_cons]
      by_cases hq : q.1 = k
      · simp [hq]
      · rw [decide_eq_false hq] at hp
        simp only [if_neg hq, decide_eq_false hq]
        exact ih hp
  · unfold lookupAssoc
    rw [List.find?_append]
    rename_i hs
    have hnone : l.find? (fun p => decide (p.1 = k)) = none := by
      cases hcase : l.find? (fun p => decide (p.1 = k)) with
      | none => rfl
      | some q => rw [hcase] at hs; simp at hs
    rw [hnone]
    simp

/-- A member entry makes its key readable. -/
theorem lookupAssoc_isSome_of_mem {l : List (String × String)}
    {k v : String} (h : (k, v) ∈ l) : (lookupAssoc l k).isSome = true := by
  unfold lookupAssoc
  have hfind : (l.find? (fun p => decide (p.1 = k))).isSome :=
    List.find?_isSome.mpr ⟨(k, v), h, by simp⟩
  cases hcase : l.find? (fun p => decide (p.1 = k)) with
  | none => rw [hcase] at hfind; simp at hfind
  | some q => rfl

/-- Entries with another key survive a dict write. -/
theorem mem_updateAssoc_of_ne {l : List (String × String)} {k v : String}
    {x : String × String} (hx : x ∈ l) (hne : x.1 ≠ k) :
    x ∈ updateAssoc l k v := by
  unfold updateAssoc
  split
  · refine List.mem_map.mpr ⟨x, hx, ?_⟩
    rw [if_neg hne]
  · exact List.mem_append_left _ hx

/-- The written entry is a member of the updated dict. -/
theorem updateAssoc_self_mem (l : List (String × String)) (k v : String) :
    (k, v) ∈ updateAssoc l k v := by
  unfold updateAssoc
  split
  · rename_i hs
    rw [Option.isSome_iff_exists] at hs
    obtain ⟨p, hp⟩ := hs
    have hpmem := List.mem_of_find?_eq_some hp
    have hpk : p.1 = k := by simpa using List.find?_some hp
    refine List.mem_map.mpr ⟨p, hpmem, ?_⟩
    rw [if_pos hpk]
  · exact List.mem_append_right _ (List.mem_singleton.mpr rfl)

/-- A successful lookup names a member entry. -/
theorem lookupAssoc_some_mem {l : List (String × String)} {k v : String}
    (h : lookupAssoc l k = some v) : (k, v) ∈ l := by
  unfold lookupAssoc at h
  rw [Option.map_eq_some'] at h
  obtain ⟨p, hp, hpv⟩ := h
  have hpk : p.1 = k := by simpa using List.find?_some hp
  have := List.mem_of_find?_eq_some hp
  rwa [show p = (k, v) from Prod.ext hpk hpv] at this

/-- Writing one key keeps every other readable key readable. -/
theorem lookupAssoc_updateAssoc_isSome {l : List (String × String)}
    {k v x : String} (h : (lookupAssoc l x).isSome = true) :
    (lookupAssoc (updateAssoc l k v) x).isSome = true := by
  by_cases hx : x = k
  · rw [hx, lookupAssoc_updateAssoc_self]
    rfl
  · rw [Option.isSome_iff_exists] at h
    obtain ⟨w, hw⟩ := h
    exact lookupAssoc_isSome_of_mem
      (mem_updateAssoc_of_ne (lookupAssoc_some_mem hw) hx)

/-- A readable key of a cons dict is the head key or readable in the
tail. -/
theorem lookupAssoc_isSome_cons {p : String × String}
    {rest : List (String × String)} {x : String}
    (h : (lookupAssoc (p :: rest) x).isSome = true) :
    x = p.1 ∨ (lookupAssoc rest x).isSome = true := by
  unfold lookupAssoc at *
  rw [List.find?_cons] at h
  by_cases hp : p.1 = x
  · exact Or.inl hp.symm
  · rw [decide_eq_false hp] at h
    exact Or.inr h

/-- On a key-duplicate-free dict a member entry is what lookup
returns. -/
theorem lookupAssoc_of_mem_keyNodup {l : List (String × String)}
    (hnd : (l.map (·.1)).Nodup) {k v : String} (h : (k, v) ∈ l) :
    lookupAssoc l k = some v := by
  cases hcase : lookupAssoc l k with
  | none =>
    unfold lookupAssoc at hcase
    rw [Option.map_eq_none', List.find?_eq_none] at hcase
    exact absurd (by simp : decide ((k, v).1 = k) = true) (hcase (k, v) h)
  | some w =>
    have := lookupAssoc_some_mem hcase
    rw [keyNodup_entry_eq hnd h this]

/-- Rejection sets only grow. -/
theorem addRej_mono {rej : String → List String} {t o t2 o2 : String}
    (h : o2 ∈ rej t2) : o2 ∈ addRej rej t o t2 := by
  unfold addRej
  split
  · rename_i ht
    subst ht
    split
    · exact h
    · exact List.mem_append_left _ h
  · exact h

/-- The added rejection is present. -/
theorem addRej_self (rej : String → List String) (t o : String) :
    o ∈ addRej rej t o t := by
  unfold addRej
  rw [if_pos rfl]
  split
  · rename_i hc
    exact List.contains_iff_exists_mem_beq.mp hc |>.elim
      (fun x hx => by
        obtain ⟨hx1, hx2⟩ := hx
        rwa [show o = x from by simpa using hx2])
  · exact List.mem_append_right _ (List.mem_singleton.mpr rfl)

/-- The free set after an insertion contains the inserted task. -/
theorem addFree_self (free : List String) (t : String) : t ∈ addFree free t := by
  unfold addFree
  split
  · rename_i hc
    simpa using hc
  · exact List.mem_append_right _ (List.mem_singleton.mpr rfl)

/-- The free set after an insertion contains the old members. -/
theorem addFree_mono {free : List String} {t x : String} (h : x ∈ free) :
    x ∈ addFree free t := by
  unfold addFree
  split
  · exact h
  · exact List.mem_append_left _ h

/-- A successful find splits the list at the found element, everything
before it failing the predicate. -/
theorem find?_split {α : Type} {p : α → Bool} {l : List α} {a : α}
    (h : l.find? p = some a) :
    ∃ l1 l2, l = l1 ++ a :: l2 ∧ ∀ x ∈ l1, p x = false := by
  induction l with
  | nil => simp at h
  | cons b t ih =>
    rw [List.find?_cons] at h
    by_cases hb : p b
    · rw [hb] at h
      simp only [Option.some.injEq] at h
      exact ⟨[], t, by rw [h]; rfl, by simp⟩
    · rw [Bool.not_eq_true] at hb
      rw [hb] at h
      obtain ⟨l1, l2, heq, hfail⟩ := ih h
      refine ⟨b :: l1, l2, by rw [heq]; rfl, ?_⟩
      intro x hx
      rcases List.mem_cons.mp hx with rfl | hx
      · exact hb
      · exact hfail x hx

/-- Case analysis of a rejection-set insertion. -/
theorem mem_addRej {rej : String → List String} {t1 o1 t o : String}
    (h : o ∈ addRej rej t1 o1 t) : o ∈ rej t ∨ (t = t1 ∧ o = o1) := by
  unfold addRej at h
  split at h
  · rename_i ht
    subst ht
    split at h
    · exact Or.inl h
    · rcases List.mem_append.mp h with h2 | h2
      · exact Or.inl h2
      · exact Or.inr ⟨rfl, List.mem_singleton.mp h2⟩
  · exact Or.inl h

/-- A readable key stays readable after appending entries. -/
theorem lookupAssoc_isSome_append {l l2 : List (String × String)} {x : String}
    (h : (lookupAssoc l x).isSome = true) :
    (lookupAssoc (l ++ l2) x).isSome = true := by
  unfold lookupAssoc at *
  rw [List.find?_append]
  cases hcase : l.find? (fun p => decide (p.1 = x)) with
  | none => rw [hcase] at h; simp at h
  | some q => rfl

/-- The first non-rejecting operator of a task preference list splits
it with every earlier operator already a rejecter. -/
theorem find_preferred_split {tpF : String → List String}
    {rej : String → List String} {t0 preferred : String}
    (h : (tpF t0).find? (fun o => ¬ (rej t0).contains o) = some preferred) :
    ∃ l1 l2, tpF t0 = l1 ++ preferred :: l2 ∧ ∀ x ∈ l1, x ∈ rej t0 := by
  obtain ⟨l1, l2, heq, hfail⟩ := find?_split h
  refine ⟨l1, l2, heq, ?_⟩
  intro x hx
  have := hfail x hx
  simpa using this

/-- One proposal step preserves the loop invariant. -/
theorem processTask_inv {T : List String} {tpF oppF : String → List String}
    {r : DARound} (hinv : DARoundInv T tpF r) (t0 : String) :
    DARoundInv T tpF (processTask tpF oppF r t0) := by
  unfold processTask
  split
  · rename_i hempty
    refine ⟨hinv.rejHeld, hinv.topDown, ?_, hinv.mKeys, hinv.cpKeys⟩
    intro t ht hnf
    by_cases het : t = t0
    · subst het
      right; right
      intro o ho
      rw [List.isEmpty_iff] at hempty
      rw [hempty] at ho
      exact absurd ho (List.not_mem_nil o)
    · exact hinv.settled t ht
        (fun hf => hnf ((List.mem_erase_of_ne het).mpr hf))
  · split
    · rename_i hfind
      refine ⟨hinv.rejHeld, hinv.topDown, ?_, hinv.mKeys, hinv.cpKeys⟩
      intro t ht hnf
      by_cases het : t = t0
      · subst het
        right; right
        intro o ho
        have := List.find?_eq_none.mp hfind o ho
        simpa using this
      · exact hinv.settled t ht
          (fun hf => hnf ((List.mem_erase_of_ne het).mpr hf))
    · rename_i preferred hfind
      split
      · rename_i competing hlook
        split
        · -- the new proposal wins: the competing task is rejected and
          -- freed, the proposal slot is overwritten
          refine ⟨?_, ?_, ?_, hinv.mKeys, updateAssoc_keys_nodup hinv.cpKeys⟩
          · intro t o ho
            rcases mem_addRej ho with ho2 | ⟨-, rfl⟩
            · rcases hinv.rejHeld t o ho2 with h2 | h2
              · exact Or.inl h2
              · exact Or.inr (lookupAssoc_updateAssoc_isSome h2)
            · right
              rw [lookupAssoc_updateAssoc_self]
              rfl
          · intro o t hmem
            rcases hmem with hmem | hmem
            · obtain ⟨l1, l2, hsp, hrej⟩ := hinv.topDown o t (Or.inl hmem)
              exact ⟨l1, l2, hsp, fun x hx => addRej_mono (hrej x hx)⟩
            · rcases mem_updateAssoc hmem with heq | hmem2
              · rw [Prod.mk.injEq] at heq
                obtain ⟨rfl, rfl⟩ := heq
                obtain ⟨l1, l2, hsp, hrej⟩ := find_preferred_split hfind
                exact ⟨l1, l2, hsp, fun x hx => addRej_mono (hrej x hx)⟩
              · obtain ⟨l1, l2, hsp, hrej⟩ := hinv.topDown o t (Or.inr hmem2)
                exact ⟨l1, l2, hsp, fun x hx => addRej_mono (hrej x hx)⟩
          · intro t ht hnf
            have hnf2 : t ∉ r.st.free := fun hf => hnf (addFree_mono hf)
            have hnc : t ≠ competing := fun he => hnf (he ▸ addFree_self _ _)
            rcases hinv.settled t ht hnf2 with hm | ⟨o2, hcp⟩ | hex
            · exact Or.inl hm
            · by_cases hop : o2 = preferred
              · subst hop
                exact absurd (keyNodup_entry_eq hinv.cpKeys
                  (lookupAssoc_some_mem hlook) hcp).symm hnc
              · exact Or.inr (Or.inl ⟨o2, mem_updateAssoc_of_ne hcp hop⟩)
            · exact Or.inr (Or.inr (fun o ho => addRej_mono (hex o ho)))
        · -- the new proposal loses: the proposing task is rejected and
          -- stays free
          refine ⟨?_, ?_, ?_, hinv.mKeys, hinv.cpKeys⟩
          · intro t o ho
            rcases mem_addRej ho with ho2 | ⟨-, rfl⟩
            · exact hinv.rejHeld t o ho2
            · right
              rw [hlook]
              rfl
          · intro o t hmem
            obtain ⟨l1, l2, hsp, hrej⟩ := hinv.topDown o t hmem
            exact ⟨l1, l2, hsp, fun x hx => addRej_mono (hrej x hx)⟩
          · intro t ht hnf
            rcases hinv.settled t ht hnf with hm | hcp | hex
            · exact Or.inl hm
            · exact Or.inr (Or.inl hcp)
            · exact Or.inr (Or.inr (fun o ho => addRej_mono (hex o ho)))
      · rename_i hlook
        -- fresh proposal appended to the round dict
        refine ⟨?_, ?_, ?_, hinv.mKeys, ?_⟩
        · intro t o ho
          rcases hinv.rejHeld t o ho with h2 | h2
          · exact Or.inl h2
          · exact Or.inr (lookupAssoc_isSome_append h2)
        · intro o t hmem
          rcases hmem with hmem | hmem
          · exact hinv.topDown o t (Or.inl hmem)
          · rcases List.mem_append.mp hmem with hmem2 | hmem2
            · exact hinv.topDown o t (Or.inr hmem2)
            · rw [List.mem_singleton, Prod.mk.injEq] at hmem2
              obtain ⟨rfl, rfl⟩ := hmem2
              obtain ⟨l1, l2, hsp, hrej⟩ := find_preferred_split hfind
              exact ⟨l1, l2, hsp, hrej⟩
        · intro t ht hnf
          rcases hinv.settled t ht hnf with hm | ⟨o2, hcp⟩ | hex
          · exact Or.inl hm
          · exact Or.inr (Or.inl ⟨o2, List.mem_append_left _ hcp⟩)
          · exact Or.inr (Or.inr hex)
        · rw [List.map_append, List.map_cons, List.map_nil]
          refine List.Nodup.append hinv.cpKeys (List.nodup_singleton _) ?_
          intro a ha hb
          rw [List.mem_singleton] at hb
          obtain ⟨p, hp, hpk⟩ := List.mem_map.mp ha
          have hsome : (lookupAssoc r.cp a).isSome = true :=
            lookupAssoc_isSome_of_mem (show (a, p.2) ∈ r.cp from by
              rw [show (a, p.2) = p from Prod.ext hpk.symm rfl]
              exact hp)
          rw [hb, hlook] at hsome
          simp at hsome

/-- Evaluation of mergeProposal when the operator held a different
task. -/
theorem mergeProposal_some_ne {st : DAState} {o t oldTask : String}
    (hlook : lookupAssoc st.matchesMap o = some oldTask) (hne : oldTask ≠ t) :
    mergeProposal st (o, t) =
      ⟨updateAssoc st.matchesMap o t, addRej st.rejectedBy oldTask o,
        (addFree st.free oldTask).erase t⟩ := by
  simp [mergeProposal, hlook, hne]

/-- Evaluation of mergeProposal when the operator held the same task. -/
theorem mergeProposal_some_eq {st : DAState} {o t : String}
    (hlook : lookupAssoc st.matchesMap o = some t) :
    mergeProposal st (o, t) =
      ⟨updateAssoc st.matchesMap o t, st.rejectedBy, st.free.erase t⟩ := by
  simp [mergeProposal, hlook]

/-- Evaluation of mergeProposal when the operator held no task. -/
theorem mergeProposal_none {st : DAState} {o t : String}
    (hlook : lookupAssoc st.matchesMap o = none) :
    mergeProposal st (o, t) =
      ⟨updateAssoc st.matchesMap o t, st.rejectedBy, st.free.erase t⟩ := by
  simp [mergeProposal, hlook]

/-- Merging the head proposal preserves the loop invariant with the
remaining proposals. -/
theorem mergeProposal_inv {T : List String} {tpF : String → List String}
    {st : DAState} {c : String × String} {rest : List (String × String)}
    (hinv : DARoundInv T tpF ⟨st, c :: rest⟩) :
    DARoundInv T tpF ⟨mergeProposal st c, rest⟩ := by
  obtain ⟨o, t⟩ := c
  have hcpKeysRest : (rest.map (·.1)).Nodup := by
    have := hinv.cpKeys
    rw [List.map_cons, List.nodup_cons] at this
    exact this.2
  cases hlook : lookupAssoc st.matchesMap o with
  | some oldTask =>
    by_cases hne : oldTask ≠ t
    · rw [mergeProposal_some_ne hlook hne]
      refine ⟨?_, ?_, ?_, updateAssoc_keys_nodup hinv.mKeys, hcpKeysRest⟩
      · intro t2 o2 ho2
        rcases mem_addRej ho2 with ho3 | ⟨-, rfl⟩
        · rcases hinv.rejHeld t2 o2 ho3 with h2 | h2
          · exact Or.inl (lookupAssoc_updateAssoc_isSome h2)
          · rcases lookupAssoc_isSome_cons h2 with rfl | h3
            · left
              rw [lookupAssoc_updateAssoc_self]
              rfl
            · exact Or.inr h3
        · left
          rw [lookupAssoc_updateAssoc_self]
          rfl
      · intro o2 t2 hmem
        rcases hmem with hmem | hmem
        · rcases mem_updateAssoc hmem with heq | hmem2
          · rw [Prod.mk.injEq] at heq
            obtain ⟨rfl, rfl⟩ := heq
            obtain ⟨l1, l2, hsp, hrej⟩ := hinv.topDown o2 t2
              (Or.inr (List.mem_cons_self _ _))
            exact ⟨l1, l2, hsp, fun x hx => addRej_mono (hrej x hx)⟩
          · obtain ⟨l1, l2, hsp, hrej⟩ := hinv.topDown o2 t2 (Or.inl hmem2)
            exact ⟨l1, l2, hsp, fun x hx => addRej_mono (hrej x hx)⟩
        · obtain ⟨l1, l2, hsp, hrej⟩ := hinv.topDown o2 t2
            (Or.inr (List.mem_cons_of_mem _ hmem))
          exact ⟨l1, l2, hsp, fun x hx => addRej_mono (hrej x hx)⟩
      · intro t2 ht2 hnf
        by_cases ht0 : t2 = t
        · subst ht0
          exact Or.inl ⟨o, updateAssoc_self_mem _ _ _⟩
        · have hnf2 : t2 ∉ addFree st.free oldTask :=
            fun hf => hnf ((List.mem_erase_of_ne ht0).mpr hf)
          have hnf3 : t2 ∉ st.free := fun hf => hnf2 (addFree_mono hf)
          have hnold : t2 ≠ oldTask := fun he => hnf2 (he ▸ addFree_self _ _)
          rcases hinv.settled t2 ht2 hnf3 with ⟨o2, hm⟩ | ⟨o2, hcp⟩ | hex
          · by_cases ho2 : o2 = o
            · subst ho2
              exact absurd (keyNodup_entry_eq hinv.mKeys
                (lookupAssoc_some_mem hlook) hm).symm hnold
            · exact Or.inl ⟨o2, mem_updateAssoc_of_ne hm ho2⟩
          · rcases List.mem_cons.mp hcp with heq | hrest
            · rw [Prod.mk.injEq] at heq
              exact absurd heq.2 ht0
            · exact Or.inr (Or.inl ⟨o2, hrest⟩)
          · exact Or.inr (Or.inr (fun o3 ho3 => addRej_mono (hex o3 ho3)))
    · rw [not_not] at hne
      rw [hne] at hlook
      rw [mergeProposal_some_eq hlook]
      refine ⟨?_, ?_, ?_, updateAssoc_keys_nodup hinv.mKeys, hcpKeysRest⟩
      · intro t2 o2 ho2
        rcases hinv.rejHeld t2 o2 ho2 with h2 | h2
        · exact Or.inl (lookupAssoc_updateAssoc_isSome h2)
        · rcases lookupAssoc_isSome_cons h2 with rfl | h3
          · left
            rw [lookupAssoc_updateAssoc_self]
            rfl
          · exact Or.inr h3
      · intro o2 t2 hmem
        rcases hmem with hmem | hmem
        · rcases mem_updateAssoc hmem with heq | hmem2
          · rw [Prod.mk.injEq] at heq
            obtain ⟨rfl, rfl⟩ := heq
            exact hinv.topDown o2 t2 (Or.inr (List.mem_cons_self _ _))
          · exact hinv.topDown o2 t2 (Or.inl hmem2)
        · exact hinv.topDown o2 t2 (Or.inr (List.mem_cons_of_mem _ hmem))
      · intro t2 ht2 hnf
        by_cases ht0 : t2 = t
        · subst ht0
          exact Or.inl ⟨o, updateAssoc_self_mem _ _ _⟩
        · have hnf3 : t2 ∉ st.free :=
            fun hf => hnf ((List.mem_erase_of_ne ht0).mpr hf)
          rcases hinv.settled t2 ht2 hnf3 with ⟨o2, hm⟩ | ⟨o2, hcp⟩ | hex
          · by_cases ho2 : o2 = o
            · subst ho2
              exact absurd (keyNodup_entry_eq hinv.mKeys
                (lookupAssoc_some_mem hlook) hm).symm ht0
            · exact Or.inl ⟨o2, mem_updateAssoc_of_ne hm ho2⟩
          · rcases List.mem_cons.mp hcp with heq | hrest
            · rw [Prod.mk.injEq] at heq
              exact absurd heq.2 ht0
            · exact Or.inr (Or.inl ⟨o2, hrest⟩)
          · exact Or.inr (Or.inr hex)
  | none =>
    rw [mergeProposal_none hlook]
    refine ⟨?_, ?_, ?_, updateAssoc_keys_nodup hinv.mKeys, hcpKeysRest⟩
    · intro t2 o2 ho2
      rcases hinv.rejHeld t2 o2 ho2 with h2 | h2
      · exact Or.inl (lookupAssoc_updateAssoc_isSome h2)
      · rcases lookupAssoc_isSome_cons h2 with rfl | h3
        · left
          rw [lookupAssoc_updateAssoc_self]
          rfl
        · exact Or.inr h3
    · intro o2 t2 hmem
      rcases hmem with hmem | hmem
      · rcases mem_updateAssoc hmem with heq | hmem2
        · rw [Prod.mk.injEq] at heq
          obtain ⟨rfl, rfl⟩ := heq
          exact hinv.topDown o2 t2 (Or.inr (List.mem_cons_self _ _))
        · exact hinv.topDown o2 t2 (Or.inl hmem2)
      · exact hinv.topDown o2 t2 (Or.inr (List.mem_cons_of_mem _ hmem))
    · intro t2 ht2 hnf
      by_cases ht0 : t2 = t
      · subst ht0
        exact Or.inl ⟨o, updateAssoc_self_mem _ _ _⟩
      · have hnf3 : t2 ∉ st.free :=
          fun hf => hnf ((List.mem_erase_of_ne ht0).mpr hf)
        rcases hinv.settled t2 ht2 hnf3 with ⟨o2, hm⟩ | ⟨o2, hcp⟩ | hex
        · by_cases ho2 : o2 = o
          · subst ho2
            exact absurd (lookupAssoc_isSome_of_mem hm)
              (by rw [hlook]; simp)
          · exact Or.inl ⟨o2, mem_updateAssoc_of_ne hm ho2⟩
        · rcases List.mem_cons.mp hcp with heq | hrest
          · rw [Prod.mk.injEq] at heq
            exact absurd heq.2 ht0
          · exact Or.inr (Or.inl ⟨o2, hrest⟩)
        · exact Or.inr (Or.inr hex)

/-- Every round of the matching loop preserves the boundary
invariant. -/
theorem daRound_inv {T : List String} {tpF oppF : String → List String}
    {st : DAState} (hinv : DARoundInv T tpF ⟨st, []⟩) :
    DARoundInv T tpF ⟨daRound tpF oppF st, []⟩ := by
  unfold daRound
  have hproc : ∀ (ts : List String) (r : DARound), DARoundInv T tpF r →
      DARoundInv T tpF (ts.foldl (processTask tpF oppF) r) := by
    intro ts
    induction ts with
    | nil => exact fun r h => h
    | cons a ts ih =>
      intro r h
      rw [List.foldl_cons]
      exact ih _ (processTask_inv h a)
  have hmerge : ∀ (cps : List (String × String)) (st2 : DAState),
      DARoundInv T tpF ⟨st2, cps⟩ →
      DARoundInv T tpF ⟨cps.foldl mergeProposal st2, []⟩ := by
    intro cps
    induction cps with
    | nil => exact fun st2 h => h
    | cons c cs ih =>
      intro st2 h
      rw [List.foldl_cons]
      exact ih _ (mergeProposal_inv h)
  exact hmerge _ _ (hproc st.free ⟨st, []⟩ hinv)

/-- The boundary invariant holds after any number of rounds of the
capped loop. -/
theorem daLoop_inv {T : List String} (tpF oppF : String → List String)
    (fuel : ℕ) (st : DAState) (hinv : DARoundInv T tpF ⟨st, []⟩) :
    DARoundInv T tpF ⟨daLoop tpF oppF fuel st, []⟩ := by
  induction fuel generalizing st with
  | zero => exact hinv
  | succ n ih =>
    unfold daLoop
    split
    · exact hinv
    · exact ih _ (daRound_inv hinv)

/-- The boundary invariant holds at the initial state. -/
theorem initialDAState_inv (T : List String) (tpF : String → List String) :
    DARoundInv T tpF ⟨initialDAState T, []⟩ := by
  refine ⟨?_, ?_, ?_, List.nodup_nil, List.nodup_nil⟩
  · intro t o ho
    exact absurd ho (List.not_mem_nil o)
  · intro o t hmem
    rcases hmem with hmem | hmem <;> exact absurd hmem (List.not_mem_nil _)
  · intro t ht hnf
    exact absurd ht hnf

/-- C5: for every task the embedded calculate_priority_score equals
the claim formula: tier base (LOW 1, MEDIUM 2, HIGH 3, URGENT 4) plus
the deadline-urgency bonus (3 when the days until deadline are at most
1, else 2 when at most 3, else 1 when at most 7, else 0, and 0 with no
deadline) plus one half when the required hours are at most 2. -/
theorem c5_priority_score_formula (t : Task) (now : Int) :
    calculatePriorityScore t now = specPriorityScore t now := by
  unfold calculatePriorityScore specPriorityScore specDeadlineBonus
  cases h : daysUntilDeadline t now with
  | none =>
    cases hd : t.deadline with
    | none => cases t.priority <;> split_ifs <;> norm_num
    | some d => simp [daysUntilDeadline, hd] at h
  | some days =>
    cases hd : t.deadline with
    | none => simp [daysUntilDeadline, hd] at h
    | some d =>
      simp only [hd, h]
      cases t.priority <;> split_ifs <;> norm_num

/-- C6 counterexample: the same task fields yield different scores at
two different values of the ambient clock (the now parameter models
the datetime.now() read inside days_until_deadline), so the source
score does depend on the current wall-clock time. -/
theorem c6_counterexample_clock_dependence :
    calculatePriorityScore ⟨"t1", "T", "general", 4, some 86400, .MEDIUM, none⟩ 0 ≠
    calculatePriorityScore ⟨"t1", "T", "general", 4, some 86400, .MEDIUM, none⟩
      (-(30 * 86400)) := by
  norm_num [calculatePriorityScore, daysUntilDeadline, Int.fdiv]

/-- C6 amended: the scorer is a deterministic function of the task
fields and the clock value it reads: two evaluations agree whenever
they observe the same days-until-deadline, and for a task without a
deadline the score does not depend on the clock at all. -/
theorem c6_deterministic_given_clock :
    (∀ (t : Task) (n1 n2 : Int),
      daysUntilDeadline t n1 = daysUntilDeadline t n2 →
      calculatePriorityScore t n1 = calculatePriorityScore t n2) ∧
    (∀ (t : Task) (n1 n2 : Int), t.deadline = none →
      calculatePriorityScore t n1 = calculatePriorityScore t n2) := by
  constructor
  · intro t n1 n2 hdays
    cases h : t.deadline with
    | none => simp only [calculatePriorityScore, h]
    | some d =>
      simp only [daysUntilDeadline, h, Option.map_some', Option.some.injEq] at hdays
      simp only [calculatePriorityScore, daysUntilDeadline, h, Option.map_some', hdays]
  · intro t n1 n2 h
    simp only [calculatePriorityScore, h]

/-- C6 witness: the amended determinism theorem applied at a concrete
task without a deadline and two distinct clock values. -/
theorem c6_deterministic_given_clock_witness :
    calculatePriorityScore ⟨"t1", "T", "general", 4, none, .HIGH, none⟩ 0 =
    calculatePriorityScore ⟨"t1", "T", "general", 4, none, .HIGH, none⟩ 999 :=
  c6_deterministic_given_clock.2 ⟨"t1", "T", "general", 4, none, .HIGH, none⟩ 0 999 rfl

/-- C9: with an empty operator list or an empty task list the run
entry point returns the input error before any strategy-specific
optimize function is consulted (the result is the same for every
optimize argument and no ScheduleResult is produced), and the Task
constructor succeeds exactly for required hours between 1 and 8. -/
theorem c9_input_errors :
    (∀ (operators : List Operator) (tasks : List Task)
       (optimize : List Operator → List Task → ScheduleResult),
      operators = [] ∨ tasks = [] →
      runAlgorithm operators tasks optimize =
        .error "Operators and tasks must be set before running the algorithm") ∧
    (∀ (taskId name taskType : String) (requiredHours : Int)
       (deadline : Option Int) (priority : Priority)
       (requiredSkill : Option String),
      (mkTask taskId name taskType requiredHours deadline priority
          requiredSkill).isOk = true ↔
        1 ≤ requiredHours ∧ requiredHours ≤ 8) := by
  constructor
  · intro operators tasks optimize h
    rcases h with h | h <;> subst h <;> simp [runAlgorithm]
  · intro taskId name taskType requiredHours deadline priority requiredSkill
    unfold mkTask
    split
    · simp [Except.isOk, Except.toBool]
      omega
    · split
      · simp [Except.isOk, Except.toBool]
        omega
      · simp [Except.isOk, Except.toBool]
        omega

/-- C9 witness: the theorem applied to the empty operator list and to
a concrete out-of-range and a concrete in-range task construction. -/
theorem c9_input_errors_witness :
    runAlgorithm [] [⟨"t1", "T", "g", 4, none, .MEDIUM, none⟩]
        (fun _ _ => ⟨"none", []⟩) =
      .error "Operators and tasks must be set before running the algorithm" ∧
    ((mkTask "t1" "T" "g" 9 none .MEDIUM none).isOk = true ↔
      (1 : Int) ≤ 9 ∧ (9 : Int) ≤ 8) :=
  ⟨c9_input_errors.1 [] [⟨"t1", "T", "g", 4, none, .MEDIUM, none⟩]
      (fun _ _ => ⟨"none", []⟩) (Or.inl rfl),
   c9_input_errors.2 "t1" "T" "g" 9 none .MEDIUM none⟩

/-- Entries produced by folding reversed insertions come from the
folded list or from the accumulator. -/
theorem revFold_mem (m : List (String × String)) :
    ∀ (acc : List (String × String)) (q : String × String),
      q ∈ m.foldl (fun a p => updateAssoc a p.2 p.1) acc →
      (q.2, q.1) ∈ m ∨ q ∈ acc := by
  induction m with
  | nil => exact fun acc q h => Or.inr h
  | cons p m ih =>
    intro acc q h
    rw [List.foldl_cons] at h
    rcases ih _ q h with hm | hacc
    · exact Or.inl (List.mem_cons_of_mem _ hm)
    · rcases mem_updateAssoc hacc with heq | hold
      · subst heq
        exact Or.inl (List.mem_cons_self _ _)
      · exact Or.inr hold

/-- Every entry of the reversed matches dict reverses an entry of the
matches dict. -/
theorem reverseMatches_mem {m : List (String × String)}
    {q : String × String} (h : q ∈ reverseMatches m) : (q.2, q.1) ∈ m := by
  rcases revFold_mem m [] q h with h2 | h2
  · exact h2
  · exact absurd h2 (List.not_mem_nil q)

/-- Folding reversed insertions keeps a readable task key readable and
makes the task of every folded entry readable. -/
theorem revFold_isSome (m : List (String × String)) :
    ∀ (acc : List (String × String)) (o t : String),
      ((o, t) ∈ m ∨ (lookupAssoc acc t).isSome = true) →
      (lookupAssoc (m.foldl (fun a p => updateAssoc a p.2 p.1) acc)
        t).isSome = true := by
  induction m with
  | nil =>
    intro acc o t h
    rcases h with h | h
    · exact absurd h (List.not_mem_nil _)
    · exact h
  | cons p m ih =>
    intro acc o t h
    rw [List.foldl_cons]
    rcases h with h | h
    · rcases List.mem_cons.mp h with heq | hm
      · apply ih _ o t (Or.inr ?_)
        have h2 : p.2 = t := by rw [← heq]
        have h1 : p.1 = o := by rw [← heq]
        rw [h2, h1, lookupAssoc_updateAssoc_self]
        rfl
      · exact ih _ o t (Or.inl hm)
    · exact ih _ o t (Or.inr (lookupAssoc_updateAssoc_isSome h))

/-- A matched operator leaves its task readable in the reversed
dict. -/
theorem reverseMatches_isSome {m : List (String × String)} {o t : String}
    (h : (o, t) ∈ m) : (lookupAssoc (reverseMatches m) t).isSome = true :=
  revFold_isSome m [] o t (Or.inl h)

/-- The index of the split point of a list split around a fresh
element. -/
theorem indexOf_append_cons_self {l1 l2 : List String} {a : String}
    (h : a ∉ l1) : (l1 ++ a :: l2).indexOf a = l1.length := by
  rw [List.indexOf_append_of_not_mem h]
  simp

/-- An element indexed strictly before the split point lies in the
left part. -/
theorem mem_left_of_indexOf_lt {l1 l2 : List String} {a x : String}
    (h : (l1 ++ a :: l2).indexOf x < l1.length) : x ∈ l1 := by
  by_contra hx
  rw [List.indexOf_append_of_not_mem hx] at h
  omega

/-- C3 counterexample: a concrete instance on which the emitted
matching contains a blocking pair, refuting the stable-matching claim.
Task T3 lists operator O2 and ends unmatched, while O2 holds T1 even
though the O2 preference list ranks T3 above T1; the loop has quiesced
(free list empty), so this is the final matching.  The root cause is
that the merge phase of one round releases a held task
unconditionally, never consulting the operator preference list. -/
theorem c3_counterexample_blocking_pair :
    (daLoop
        (fun t => if t = "T1" then ["O1", "O2"] else if t = "T2" then ["O1"]
          else if t = "T3" then ["O2"] else [])
        (fun o => if o = "O1" then ["T2", "T1"]
          else if o = "O2" then ["T3", "T1"] else [])
        10 (initialDAState ["T1", "T2", "T3"])).free = [] ∧
    isBlockingPair
      (fun t => if t = "T1" then ["O1", "O2"] else if t = "T2" then ["O1"]
        else if t = "T3" then ["O2"] else [])
      (fun o => if o = "O1" then ["T2", "T1"]
        else if o = "O2" then ["T3", "T1"] else [])
      (daLoop
        (fun t => if t = "T1" then ["O1", "O2"] else if t = "T2" then ["O1"]
          else if t = "T3" then ["O2"] else [])
        (fun o => if o = "O1" then ["T2", "T1"]
          else if o = "O2" then ["T3", "T1"] else [])
        10 (initialDAState ["T1", "T2", "T3"])).matchesMap
      "T3" "O2" = true := by
  decide

/-- C3 (amended): the restricted stability property the loop does
satisfy.  Once the deferred-acceptance loop has quiesced (empty free
list), and when the task preference lists are duplicate-free, no input
task forms a blocking pair with an operator that ended up unmatched:
whenever a task would rank some operator above its own outcome, that
operator has already rejected the task, and a rejecting operator is
always matched at the end.  Stability against matched operators fails,
as the counterexample shows. -/
theorem c3_no_blocking_pair_with_unmatched_operator
    (tpF oppF : String → List String) (taskIds : List String) (fuel : ℕ)
    (t o : String) (hnd : ∀ t2, (tpF t2).Nodup)
    (hfree : (daLoop tpF oppF fuel (initialDAState taskIds)).free = [])
    (ht : t ∈ taskIds)
    (ho : lookupAssoc
      (daLoop tpF oppF fuel (initialDAState taskIds)).matchesMap o = none) :
    isBlockingPair tpF oppF
      (daLoop tpF oppF fuel (initialDAState taskIds)).matchesMap t o
      = false := by
  set final := daLoop tpF oppF fuel (initialDAState taskIds) with hfin
  have hinv : DARoundInv taskIds tpF ⟨final, []⟩ := by
    rw [hfin]
    exact daLoop_inv tpF oppF fuel _ (initialDAState_inv taskIds tpF)
  have hrejm : ∀ o2, o2 ∈ final.rejectedBy t →
      (lookupAssoc final.matchesMap o2).isSome = true := by
    intro o2 h2
    rcases hinv.rejHeld t o2 h2 with h3 | h3
    · exact h3
    · simp [lookupAssoc] at h3
  have hnotfree : t ∉ final.free := by
    rw [hfree]
    exact List.not_mem_nil t
  have homatch : (lookupAssoc final.matchesMap o).isSome = true → False := by
    intro hs
    rw [ho] at hs
    simp at hs
  by_contra hb
  rw [Bool.not_eq_false] at hb
  unfold isBlockingPair at hb
  rw [Bool.and_eq_true, Bool.and_eq_true] at hb
  obtain ⟨⟨hcont, htp⟩, -⟩ := hb
  have homem : o ∈ tpF t := by simpa using hcont
  rcases hinv.settled t ht hnotfree with ⟨o2, hm⟩ | ⟨o2, hcp⟩ | hall
  · have hsome : (lookupAssoc (reverseMatches final.matchesMap)
        t).isSome = true := reverseMatches_isSome hm
    rw [Option.isSome_iff_exists] at hsome
    obtain ⟨o3, ho3⟩ := hsome
    have ho3m : (o3, t) ∈ final.matchesMap :=
      reverseMatches_mem (lookupAssoc_some_mem ho3)
    obtain ⟨l1, l2, hsp, hrej⟩ := hinv.topDown o3 t (Or.inl ho3m)
    have hndt := hnd t
    rw [hsp, List.nodup_append] at hndt
    have ho3l1 : o3 ∉ l1 := fun hin =>
      hndt.2.2 hin (List.mem_cons_self _ _)
    have htm : taskMatchOf final.matchesMap t = some o3 := ho3
    rw [htm] at htp
    simp only [taskPrefersOver, decide_eq_true_eq] at htp
    rw [hsp, indexOf_append_cons_self ho3l1] at htp
    exact homatch (hrejm o (hrej o (mem_left_of_indexOf_lt htp)))
  · exact absurd hcp (List.not_mem_nil _)
  · exact homatch (hrejm o (hall o homem))

/-- C3 witness: the amended theorem applied to a one-task instance in
which task T1 matches operator O1, operator O2 stays unmatched, and
the pair of T1 with O2 is not blocking. -/
theorem c3_no_blocking_pair_with_unmatched_operator_witness :
    (daLoop (fun _ => ["O1"]) (fun _ => ["T1"]) 10
        (initialDAState ["T1"])).free = [] ∧
    lookupAssoc (daLoop (fun _ => ["O1"]) (fun _ => ["T1"]) 10
      (initialDAState ["T1"])).matchesMap "O2" = none ∧
    isBlockingPair (fun _ => ["O1"]) (fun _ => ["T1"])
      (daLoop (fun _ => ["O1"]) (fun _ => ["T1"]) 10
        (initialDAState ["T1"])).matchesMap "T1" "O2" = false :=
  ⟨by decide, by decide,
   c3_no_blocking_pair_with_unmatched_operator (fun _ => ["O1"])
     (fun _ => ["T1"]) ["T1"] 10 "T1" "O2"
     (fun _ => List.nodup_singleton "O1") (by decide)
     (by decide) (by decide)⟩

end Claims

end JobAlloc
